import Mathlib

/-!
# Verification of `postcss-plugin-split-chunks` (`src/index.js`)

This file gives a shallow embedding of the chunk-splitting plugin's `Once`
pass (`src/index.js`) and proves/refutes the frozen specification claims.

Modelling notes, traceable to the source:

* The PostCSS node model is embedded as the inductive `Node`: rules
  (selector + children), at-rules (`name`, `params`, optional child list —
  `none` models a body-less at-rule whose `nodes` property is `undefined`),
  declarations and comments.
* Serialization (`node.toString()`) is performed by the external PostCSS
  stringifier, which is outside this repository.  It is modelled by the
  canonical printer `Node.toStr`; sizes (`Buffer.byteLength(s, "utf8")`,
  `src/index.js:32`) are the UTF-8 byte counts of that canonical form
  (`strBytes` sums `Char.utf8Size`, which is exactly UTF-8 encoding size).
  The printer is strictly concatenative, so the size estimate kept by the
  plugin coincides with the serialized size of a chunk, which is the
  behaviour §4.1 of the spec demands of the estimator/serializer pair.
* The `parentShell` parameter of `addNode` (`src/index.js:30`) is `null` at
  the root call (line 171) and is passed through unchanged in the one
  recursive call (line 116), so it is always `null`; every use of it
  (`parentShell || currentChunk`, `parentShell && currentChunk.last`)
  reduces to `currentChunk`.  The embedding therefore omits it.
* `addNode` can crash in the source: shell reuse (lines 134-144) matches the
  last node by type/name/params only.  Descending *through* a body-less
  matching at-rule makes the next `currentParent.nodes.length` read throw,
  so the embedding returns `none` (`Option`) there; a body-less match at the
  *deepest* chain level does not throw (PostCSS's `AtRule.append` creates
  the missing `nodes` array), it silently gives the at-rule a body.
* The canonical printer renders a body-less at-rule with an empty block
  (`@name params{}`), so that giving it a body (previous point) changes its
  serialized size by exactly the appended child's size and the byte
  accounting stays strictly concatenative.
* The state additionally carries *ghost* fields (`curLog`, `chunkLogs`,
  `visitLog`) that record, without influencing any decision, which node was
  appended to which chunk with which parent chain / sizes, and which nodes
  were visited.  They only serve to state theorems about appends and visits.
-/

/-- The embedded PostCSS node tree.  `atrule name params none` is an at-rule
without a body (its `nodes` property is `undefined` in PostCSS);
`atrule name params (some kids)` has a body (possibly empty). -/
inductive Node where
  | rule (selector : String) (nodes : List Node)
  | atrule (name params : String) (nodes : Option (List Node))
  | decl (prop value : String)
  | comment (text : String)

namespace Node

mutual

/-- Canonical serialization of a node.  Models the external PostCSS
stringifier (out of scope of the repository, spec §1/§4.1); it is strictly
concatenative so that the plugin's additive size accounting matches the
serialized output exactly, as §4.1 requires. -/
def toStr : Node → String
  | .rule sel kids => sel ++ "\x7b" ++ listToStr kids ++ "\x7d"
  | .atrule n p (some kids) => "@" ++ n ++ " " ++ p ++ "\x7b" ++ listToStr kids ++ "\x7d"
  | .atrule n p none => "@" ++ n ++ " " ++ p ++ "\x7b\x7d"
  | .decl prop value => prop ++ ":" ++ value ++ ";"
  | .comment t => "/*" ++ t ++ "*/"

/-- Serialization of a list of sibling nodes: their concatenation. -/
def listToStr : List Node → String
  | [] => ""
  | n :: rest => toStr n ++ listToStr rest

end

end Node

/-- UTF-8 byte length of a string (`Buffer.byteLength(s, "utf8")`,
`src/index.js:32`): the sum of the UTF-8 sizes of its characters. -/
def strBytes (s : String) : Nat := (s.data.map Char.utf8Size).sum

/-- Estimated byte size of a node (`src/index.js:32`). -/
def Node.bytes (n : Node) : Nat := strBytes n.toStr

/-- Total byte size of a list of sibling nodes. -/
def listBytes (ns : List Node) : Nat := (ns.map Node.bytes).sum

/-- `node.name` as used by the source on arbitrary nodes: JavaScript yields
`undefined` when the node is not an at-rule (`src/index.js:39`). -/
def Node.nameOf : Node → String
  | .atrule n _ _ => n
  | _ => "undefined"

/-- `node.params`; only ever read on at-rules. -/
def Node.paramsOf : Node → String
  | .atrule _ p _ => p
  | _ => "undefined"

/-- `node.selectors[0]`.  PostCSS computes `selectors` by splitting the
selector at commas and trimming; modelled from the spec of that external
accessor. -/
def Node.firstSelector : Node → String
  | .rule sel _ => (((sel.splitOn ",").headD sel).trim)
  | _ => "undefined"

/-- The identifier used in the oversize warning (`src/index.js:36-39`). -/
def warnIdent (n : Node) : String :=
  match n with
  | .rule _ _ => "starting with selector '" ++ n.firstSelector ++ "'"
  | _ => "@-rule '@" ++ n.nameOf ++ "'"

/-- The oversize warning message (`src/index.js:40-43`). -/
def warnMsg (n : Node) (nodeSize limit : Nat) : String :=
  warnIdent n ++ " has an estimated size of " ++ toString nodeSize ++
    " bytes, exceeding the " ++ toString limit ++
    " byte limit and cannot be split."

/-- The fixed set of non-splittable at-rule names (`src/index.js:57-62`). -/
def nonSplittableAtRules : List String :=
  ["keyframes", "font-face", "page", "counter-style"]

/-- `hasActualContent` (`src/index.js:96-100`): some child is a rule or an
at-rule with a non-empty body. -/
def hasActualContent (kids : List Node) : Bool :=
  kids.any fun child =>
    match child with
    | .rule _ _ => true
    | .atrule _ _ (some grand) => grand.length > 0
    | _ => false

/-- Which branch of `addNode` performed an append (ghost information). -/
inductive AppendTag where
  | normal      -- the normal flow, `src/index.js:121-168`
  | atomicWhole -- the non-splittable branch, `src/index.js:63-93`
  | noContent   -- the "no actual content" branch, `src/index.js:102-111`
deriving DecidableEq, Repr

/-- Ghost record of one append to the current chunk. -/
structure AppendLog where
  node : Node
  chain : List Node
  nodeBytes : Nat
  shellBytes : Nat
  tag : AppendTag

/-- The mutable state of the `Once` callback (`src/index.js:11-13`), plus
ghost logs.  `finalChunks` and `currentChunk` hold the top-level node lists
of the PostCSS roots built by the plugin. -/
structure ChunkState where
  finalChunks : List (List Node)
  currentChunk : List Node
  currentChunkSize : Nat
  warnings : List String
  chunkLogs : List (List AppendLog) -- ghost: one log per final chunk
  curLog : List AppendLog           -- ghost: log of the current chunk
  visitLog : List (Node × Nat)      -- ghost: every `addNode` visit with its size

/-- The initial state (`src/index.js:11-13`). -/
def initState : ChunkState :=
  { finalChunks := [], currentChunk := [], currentChunkSize := 0,
    warnings := [], chunkLogs := [], curLog := [], visitLog := [] }

/-- `startNewChunk` (`src/index.js:16-22`): push the current chunk if it has
any nodes, then reset it. -/
def startNewChunk (st : ChunkState) : ChunkState :=
  if st.currentChunk.length > 0 then
    { st with finalChunks := st.finalChunks ++ [st.currentChunk],
              chunkLogs := st.chunkLogs ++ [st.curLog],
              currentChunk := [], currentChunkSize := 0, curLog := [] }
  else
    { st with currentChunk := [], currentChunkSize := 0, curLog := [] }

/-- `parentAtRule.clone({ nodes: [] })` (`src/index.js:74,147`): an empty
shell copy of an at-rule. -/
def shellOf (p : Node) : Node := .atrule p.nameOf p.paramsOf (some [])

/-- The parent-chain reconstruction of the normal flow
(`src/index.js:127-161`): walk the chain; at each level reuse the target's
last node when it is an at-rule with the same name and params, otherwise
append a fresh empty shell; finally append the node at the deepest level.
Returns the new target list together with the total size of newly created
shells.  When the match at the deepest level is an at-rule without a body,
the source's `append` creates the body (PostCSS `AtRule.append`); a
body-less match at an intermediate level makes the source throw on
`currentParent.nodes.length`, modelled as `none`. -/
def appendViaChain : (chain : List Node) → (node : Node) → (target : List Node) →
    Option (List Node × Nat)
  | [], node, target => some (target ++ [node], 0)
  | p :: rest, node, target =>
    match target.getLast? with
    | some (.atrule n2 p2 optKids) =>
      if n2 = p.nameOf ∧ p2 = p.paramsOf then
        match optKids with
        | none =>
          match rest with
          | [] => some (target.dropLast ++ [.atrule n2 p2 (some [node])], 0)
          | _ :: _ => none
        | some kids =>
          (appendViaChain rest node kids).map fun r =>
            (target.dropLast ++ [.atrule n2 p2 (some r.1)], r.2)
      else
        (appendViaChain rest node []).map fun r =>
          (target ++ [.atrule p.nameOf p.paramsOf (some r.1)],
           (shellOf p).bytes + r.2)
    | _ =>
      (appendViaChain rest node []).map fun r =>
        (target ++ [.atrule p.nameOf p.paramsOf (some r.1)],
         (shellOf p).bytes + r.2)

/-- The chain reconstruction of the non-splittable branch
(`src/index.js:70-85`): always build fresh nested shells (no reuse) and put
the node at the deepest level.  Returns the wrapped node and the total size
of the created shells. -/
def freshWrap : (chain : List Node) → (node : Node) → Node × Nat
  | [], node => (node, 0)
  | p :: rest, node =>
    let r := freshWrap rest node
    (.atrule p.nameOf p.paramsOf (some [r.1]), (shellOf p).bytes + r.2)

/-- The state updates performed at the top of every `addNode` call
(`src/index.js:32-44`): the oversize warning (note `size &&`: disabled at
limit 0) and the ghost visit record. -/
def noteVisit (size : Nat) (node : Node) (nodeSize : Nat)
    (st : ChunkState) : ChunkState :=
  let st :=
    if size ≠ 0 ∧ nodeSize > size then
      { st with warnings := st.warnings ++ [warnMsg node nodeSize size] }
    else st
  { st with visitLog := st.visitLog ++ [(node, nodeSize)] }

/-- The non-splittable branch after its guard (`src/index.js:63-93`): flush
a non-empty chunk, then append the whole node, wrapped in freshly built
shells when a parent chain is open. -/
def atomicPlace (node : Node) (nodeSize : Nat) (parentChain : List Node)
    (st : ChunkState) : ChunkState :=
  let st := if st.currentChunk.length > 0 then startNewChunk st else st
  if parentChain.length > 0 then
    let w := freshWrap parentChain node
    { st with
      currentChunk := st.currentChunk ++ [w.1],
      currentChunkSize := st.currentChunkSize + w.2 + nodeSize,
      curLog := st.curLog ++ [⟨node, parentChain, nodeSize, w.2, .atomicWhole⟩] }
  else
    { st with
      currentChunk := st.currentChunk ++ [node],
      currentChunkSize := st.currentChunkSize + nodeSize,
      curLog := st.curLog ++ [⟨node, [], nodeSize, 0, .atomicWhole⟩] }

/-- The "no actual content" branch (`src/index.js:102-111`): append the
whole node directly, with no overflow check and ignoring the parent chain
(`targetParent` is `currentChunk` because `parentShell` is always null). -/
def noContentPlace (node : Node) (nodeSize : Nat) (parentChain : List Node)
    (st : ChunkState) : ChunkState :=
  { st with
    currentChunk := st.currentChunk ++ [node],
    currentChunkSize := st.currentChunkSize + nodeSize,
    curLog := st.curLog ++ [⟨node, parentChain, nodeSize, 0, .noContent⟩] }

/-- The normal flow of `addNode` (`src/index.js:121-168`): flush when the
node would overflow a non-empty chunk, then append it, rebuilding the parent
chain when one is open. -/
def normalFlow (size : Nat) (node : Node) (nodeSize : Nat)
    (parentChain : List Node) (st : ChunkState) : Option ChunkState :=
  let projectedSize := st.currentChunkSize + nodeSize
  let st :=
    if size ≠ 0 ∧ projectedSize > size ∧ st.currentChunk.length > 0 then
      startNewChunk st
    else st
  if parentChain.length > 0 then
    match appendViaChain parentChain node st.currentChunk with
    | none => none
    | some r =>
      some { st with
        currentChunk := r.1,
        currentChunkSize := st.currentChunkSize + r.2 + nodeSize,
        curLog := st.curLog ++ [⟨node, parentChain, nodeSize, r.2, .normal⟩] }
  else
    some { st with
      currentChunk := st.currentChunk ++ [node],
      currentChunkSize := st.currentChunkSize + nodeSize,
      curLog := st.curLog ++ [⟨node, [], nodeSize, 0, .normal⟩] }

mutual

/-- `addNode` (`src/index.js:30-169`).  `size` is the configured limit.
The `parentShell` parameter of the source is omitted (it is always `null`,
see the header comment).  Returns `none` where the source would throw. -/
def addNode (size : Nat) (node : Node) (parentChain : List Node)
    (st : ChunkState) : Option ChunkState :=
  let nodeSize := node.bytes
  let st := noteVisit size node nodeSize st
  let projectedSize := st.currentChunkSize + nodeSize
  match node with
  | .atrule name _params (some kids) =>
    -- split guard, src/index.js:49-55
    if kids.length > 0 ∧ size ≠ 0 ∧ projectedSize > size then
      if name ∈ nonSplittableAtRules then
        some (atomicPlace node nodeSize parentChain st)
      else if ¬ hasActualContent kids then
        some (noContentPlace node nodeSize parentChain st)
      else
        -- recurse into the children, src/index.js:114-117
        addNodes size kids (parentChain ++ [node]) st
    else
      normalFlow size node nodeSize parentChain st
  | _ => normalFlow size node nodeSize parentChain st

/-- `node.nodes.forEach((child) => addNode(child, …))` (`src/index.js:115`,
and the top-level loop at line 171): process the nodes in order. -/
def addNodes (size : Nat) (nodes : List Node) (parentChain : List Node)
    (st : ChunkState) : Option ChunkState :=
  match nodes with
  | [] => some st
  | n :: rest =>
    match addNode size n parentChain st with
    | none => none
    | some st' => addNodes size rest parentChain st'

end

/-- The observable result of the `Once` callback (`src/index.js:10-183`):
the produced chunks (as top-level node lists), the accumulated warnings,
and the input root's node list after processing (`root.removeAll()`,
line 182, clears it).  Ghost logs are carried along. -/
structure RunResult where
  chunks : List (List Node)
  warnings : List String
  rootAfter : List Node
  chunkLogs : List (List AppendLog) -- ghost
  visitLog : List (Node × Nat)      -- ghost

/-- The whole `Once` pass (`src/index.js:171-182`) on an input root with
top-level nodes `ns`: visit every top-level node, perform the final flush,
and clear the input root. -/
def runOnce (size : Nat) (ns : List Node) : Option RunResult :=
  match addNodes size ns [] initState with
  | none => none
  | some st =>
    let st := startNewChunk st
    some { chunks := st.finalChunks, warnings := st.warnings,
           rootAfter := [], chunkLogs := st.chunkLogs,
           visitLog := st.visitLog }

/-! ## Derived notions used by the specification claims -/

mutual

/-- The leaf content of a node (spec §8 "Lossless content": "selectors +
declarations, at-rule bodies"): at-rules with a body are transparent
wrappers (their content is the leaf content of their children, and an
emptied shell contributes nothing), a body-less at-rule carries no leaf
content, and rules, declarations and comments are leaf units. -/
def flattenLeaves : Node → List Node
  | .atrule _ _ (some kids) => flattenLeavesList kids
  | .atrule _ _ none => []
  | n => [n]

/-- Leaf content of a list of sibling nodes, in order. -/
def flattenLeavesList : List Node → List Node
  | [] => []
  | n :: rest => flattenLeaves n ++ flattenLeavesList rest

end

mutual

/-- The outermost subtrees rooted at a non-splittable at-rule
(keyframes/font-face/page/counter-style), in document order. -/
def atomicSubtrees : Node → List Node
  | .rule _ kids => atomicSubtreesList kids
  | .atrule n p (some kids) =>
    if n ∈ nonSplittableAtRules then [.atrule n p (some kids)]
    else atomicSubtreesList kids
  | .atrule n p none =>
    if n ∈ nonSplittableAtRules then [.atrule n p none] else []
  | _ => []

/-- `atomicSubtrees` over a list of sibling nodes, in order. -/
def atomicSubtreesList : List Node → List Node
  | [] => []
  | n :: rest => atomicSubtrees n ++ atomicSubtreesList rest

end

/-- `chunkHasNested chain node chunk` holds when the chunk (a list of
top-level nodes) contains `node` wrapped, in order, inside at-rules whose
name and params match the elements of `chain`. -/
def chunkHasNested : List Node → Node → List Node → Prop
  | [], node, chunk => node ∈ chunk
  | p :: rest, node, chunk =>
    ∃ kids, Node.atrule p.nameOf p.paramsOf (some kids) ∈ chunk ∧
      chunkHasNested rest node kids

/-! ## Size arithmetic for the canonical serializer -/

theorem strBytes_append (s t : String) :
    strBytes (s ++ t) = strBytes s + strBytes t := by
  simp [strBytes, String.data_append]

theorem strBytes_listToStr (ns : List Node) :
    strBytes (Node.listToStr ns) = listBytes ns := by
  induction ns with
  | nil => simp [Node.listToStr, strBytes, listBytes]
  | cons n rest ih =>
    simp [Node.listToStr, strBytes_append, listBytes, ih, Node.bytes]

/-- The canonical serializer is strictly concatenative: the size of an
at-rule with a body is the size of its empty shell plus its children. -/
theorem bytes_atrule_some (n p : String) (kids : List Node) :
    (Node.atrule n p (some kids)).bytes =
      (Node.atrule n p (some [])).bytes + listBytes kids := by
  simp [Node.bytes, Node.toStr, strBytes_append, strBytes_listToStr,
    Node.listToStr]
  ring

/-- Every node's canonical serialization takes at least one byte. -/
theorem bytes_pos (n : Node) : 1 ≤ n.bytes := by
  match n with
  | .rule sel kids =>
    simp [Node.bytes, Node.toStr, strBytes_append]
    have : 1 ≤ strBytes "\x7b" := by decide
    omega
  | .atrule nm p (some kids) =>
    simp [Node.bytes, Node.toStr, strBytes_append]
    have : 1 ≤ strBytes "@" := by decide
    omega
  | .atrule nm p none =>
    simp [Node.bytes, Node.toStr, strBytes_append]
    have : 1 ≤ strBytes "@" := by decide
    omega
  | .decl p v =>
    simp [Node.bytes, Node.toStr, strBytes_append]
    have : 1 ≤ strBytes ":" := by decide
    omega
  | .comment t =>
    simp [Node.bytes, Node.toStr, strBytes_append]
    have : 1 ≤ strBytes "/*" := by decide
    omega

/-! ## Small facts about the state operations -/

theorem flattenLeavesList_eq (ns : List Node) :
    flattenLeavesList ns = ns.flatMap flattenLeaves := by
  induction ns with
  | nil => simp [flattenLeavesList]
  | cons n rest ih => simp [flattenLeavesList, ih]

theorem atomicSubtreesList_eq (ns : List Node) :
    atomicSubtreesList ns = ns.flatMap atomicSubtrees := by
  induction ns with
  | nil => simp [atomicSubtreesList]
  | cons n rest ih => simp [atomicSubtreesList, ih]

theorem noteVisit_finalChunks (size : Nat) (node : Node) (ns : Nat)
    (st : ChunkState) : (noteVisit size node ns st).finalChunks = st.finalChunks := by
  simp only [noteVisit]
  split <;> rfl

theorem noteVisit_currentChunk (size : Nat) (node : Node) (ns : Nat)
    (st : ChunkState) : (noteVisit size node ns st).currentChunk = st.currentChunk := by
  simp only [noteVisit]
  split <;> rfl

theorem noteVisit_currentChunkSize (size : Nat) (node : Node) (ns : Nat)
    (st : ChunkState) :
    (noteVisit size node ns st).currentChunkSize = st.currentChunkSize := by
  simp only [noteVisit]
  split <;> rfl

theorem noteVisit_curLog (size : Nat) (node : Node) (ns : Nat)
    (st : ChunkState) : (noteVisit size node ns st).curLog = st.curLog := by
  simp only [noteVisit]
  split <;> rfl

theorem noteVisit_chunkLogs (size : Nat) (node : Node) (ns : Nat)
    (st : ChunkState) : (noteVisit size node ns st).chunkLogs = st.chunkLogs := by
  simp only [noteVisit]
  split <;> rfl

/-! ## The generic content-preservation argument

Both the lossless-content claim and the atomicity claim state that a
projection of the produced chunks, concatenated in order, equals the same
projection of the input.  `projChunks` is that concatenation over the state;
`GoodProj` captures the one property of the projection the algorithm relies
on: at-rules with a body whose name is splittable are transparent. -/

/-- All content of the state under a projection, in output order. -/
def projChunks (proj : Node → List Node) (st : ChunkState) : List Node :=
  (st.finalChunks.flatMap fun c => c.flatMap proj) ++
    st.currentChunk.flatMap proj

/-- A projection that looks through splittable at-rule wrappers and gives
no content to a splittable at-rule without a body. -/
def GoodProj (proj : Node → List Node) : Prop :=
  (∀ n p kids, n ∉ nonSplittableAtRules →
    proj (.atrule n p (some kids)) = kids.flatMap proj) ∧
  (∀ n p, n ∉ nonSplittableAtRules → proj (.atrule n p none) = [])

/-- Parent chains produced by the algorithm: only splittable names. -/
def ChainOK (chain : List Node) : Prop :=
  ∀ c ∈ chain, c.nameOf ∉ nonSplittableAtRules

theorem projChunks_noteVisit (proj : Node → List Node) (size : Nat)
    (node : Node) (ns : Nat) (st : ChunkState) :
    projChunks proj (noteVisit size node ns st) = projChunks proj st := by
  simp [projChunks, noteVisit_finalChunks, noteVisit_currentChunk]

theorem projChunks_startNewChunk (proj : Node → List Node) (st : ChunkState) :
    projChunks proj (startNewChunk st) = projChunks proj st := by
  simp only [startNewChunk]
  split
  · simp [projChunks, List.flatMap_append]
  · rename_i h
    have hnil : st.currentChunk = [] := by
      cases hc : st.currentChunk with
      | nil => rfl
      | cons a l => rw [hc] at h; simp at h
    simp [projChunks, hnil]

theorem appendViaChain_proj (proj : Node → List Node) (hG : GoodProj proj) :
    ∀ (chain : List Node) (node : Node) (target : List Node)
      (r : List Node × Nat),
      ChainOK chain →
      appendViaChain chain node target = some r →
      r.1.flatMap proj = target.flatMap proj ++ proj node := by
  intro chain
  induction chain with
  | nil =>
    intro node target r _ h
    simp only [appendViaChain, Option.some.injEq] at h
    subst h
    simp
  | cons p rest ih =>
    intro node target r hc h
    have hp : p.nameOf ∉ nonSplittableAtRules := hc p (by simp)
    have hrest : ChainOK rest := fun c hcm => hc c (by simp [hcm])
    rw [appendViaChain] at h
    cases hL : target.getLast? with
    | none =>
      rw [hL] at h
      dsimp only at h
      rcases Option.map_eq_some'.1 h with ⟨r0, h0, hr⟩
      subst hr
      have hbase := ih node [] r0 hrest h0
      simp only [List.flatMap_nil, List.nil_append] at hbase
      simp [List.flatMap_append, hbase, hG.1 _ p.paramsOf _ hp]
    | some last =>
      rw [hL] at h
      cases last with
      | atrule n2 p2 optKids =>
        dsimp only at h
        rcases List.getLast?_eq_some_iff.1 hL with ⟨ys, hys⟩
        by_cases hmatch : n2 = p.nameOf ∧ p2 = p.paramsOf
        · rw [if_pos hmatch] at h
          cases optKids with
          | none =>
            cases rest with
            | cons q qs => exact absurd h (by simp)
            | nil =>
              simp only [Option.some.injEq] at h
              subst h hys
              have hp2 : n2 ∉ nonSplittableAtRules := by
                rw [hmatch.1]; exact hp
              have hd : (ys ++ [Node.atrule n2 p2 none]).dropLast = ys :=
                List.dropLast_concat
              rw [hd]
              simp only [List.flatMap_append, List.flatMap_cons,
                List.flatMap_nil, List.append_nil]
              rw [hG.1 _ _ _ hp2, hG.2 _ _ hp2]
              simp
          | some kids =>
            rcases Option.map_eq_some'.1 h with ⟨r0, h0, hr⟩
            subst hr
            have hrec := ih node kids r0 hrest h0
            have hp2 : n2 ∉ nonSplittableAtRules := by
              rw [hmatch.1]; exact hp
            subst hys
            have hd : (ys ++ [Node.atrule n2 p2 (some kids)]).dropLast = ys :=
              List.dropLast_concat
            rw [hd]
            simp only [List.flatMap_append, List.flatMap_cons,
              List.flatMap_nil, List.append_nil]
            rw [hG.1 _ _ _ hp2, hG.1 _ _ _ hp2, hrec, List.append_assoc]
        · rw [if_neg hmatch] at h
          rcases Option.map_eq_some'.1 h with ⟨r0, h0, hr⟩
          subst hr
          have hbase := ih node [] r0 hrest h0
          simp only [List.flatMap_nil, List.nil_append] at hbase
          simp [List.flatMap_append, hbase, hG.1 _ p.paramsOf _ hp]
      | rule sel kids =>
        dsimp only at h
        rcases Option.map_eq_some'.1 h with ⟨r0, h0, hr⟩
        subst hr
        have hbase := ih node [] r0 hrest h0
        simp only [List.flatMap_nil, List.nil_append] at hbase
        simp [List.flatMap_append, hbase, hG.1 _ p.paramsOf _ hp]
      | decl a b =>
        dsimp only at h
        rcases Option.map_eq_some'.1 h with ⟨r0, h0, hr⟩
        subst hr
        have hbase := ih node [] r0 hrest h0
        simp only [List.flatMap_nil, List.nil_append] at hbase
        simp [List.flatMap_append, hbase, hG.1 _ p.paramsOf _ hp]
      | comment t =>
        dsimp only at h
        rcases Option.map_eq_some'.1 h with ⟨r0, h0, hr⟩
        subst hr
        have hbase := ih node [] r0 hrest h0
        simp only [List.flatMap_nil, List.nil_append] at hbase
        simp [List.flatMap_append, hbase, hG.1 _ p.paramsOf _ hp]

theorem freshWrap_proj (proj : Node → List Node) (hG : GoodProj proj) :
    ∀ (chain : List Node) (node : Node), ChainOK chain →
      proj (freshWrap chain node).1 = proj node := by
  intro chain
  induction chain with
  | nil => intro node _; simp [freshWrap]
  | cons p rest ih =>
    intro node hc
    have hp : p.nameOf ∉ nonSplittableAtRules := hc p (by simp)
    have hrest : ChainOK rest := fun c hcm => hc c (by simp [hcm])
    simp [freshWrap, hG.1 _ p.paramsOf _ hp, ih node hrest]

theorem projChunks_noContentPlace (proj : Node → List Node) (node : Node)
    (ns : Nat) (chain : List Node) (st : ChunkState) :
    projChunks proj (noContentPlace node ns chain st) =
      projChunks proj st ++ proj node := by
  simp [noContentPlace, projChunks, List.flatMap_append]

theorem projChunks_atomicPlace (proj : Node → List Node) (hG : GoodProj proj)
    (node : Node) (ns : Nat) (chain : List Node) (st : ChunkState)
    (hc : ChainOK chain) :
    projChunks proj (atomicPlace node ns chain st) =
      projChunks proj st ++ proj node := by
  unfold atomicPlace
  set st1 := if st.currentChunk.length > 0 then startNewChunk st else st with hst1
  have h1 : projChunks proj st1 = projChunks proj st := by
    rw [hst1]; split
    · exact projChunks_startNewChunk proj st
    · rfl
  split
  · simp only [projChunks, List.flatMap_append, List.flatMap_cons,
      List.flatMap_nil, List.append_nil]
    rw [freshWrap_proj proj hG chain node hc]
    have h2 : projChunks proj st1 ++ proj node =
        projChunks proj st ++ proj node := by rw [h1]
    simp only [projChunks, List.append_assoc] at h2 ⊢
    exact h2
  · simp only [projChunks, List.flatMap_append, List.flatMap_cons,
      List.flatMap_nil, List.append_nil]
    have h2 : projChunks proj st1 ++ proj node =
        projChunks proj st ++ proj node := by rw [h1]
    simp only [projChunks, List.append_assoc] at h2 ⊢
    exact h2

theorem normalFlow_proj (proj : Node → List Node) (hG : GoodProj proj)
    (size : Nat) (node : Node) (ns : Nat) (chain : List Node)
    (st st' : ChunkState) (hc : ChainOK chain)
    (h : normalFlow size node ns chain st = some st') :
    projChunks proj st' = projChunks proj st ++ proj node := by
  unfold normalFlow at h
  set st1 := if size ≠ 0 ∧ st.currentChunkSize + ns > size ∧
      st.currentChunk.length > 0 then startNewChunk st else st with hst1
  have h1 : projChunks proj st1 = projChunks proj st := by
    rw [hst1]; split
    · exact projChunks_startNewChunk proj st
    · rfl
  have h2 : projChunks proj st1 ++ proj node =
      projChunks proj st ++ proj node := by rw [h1]
  by_cases hchain : chain.length > 0
  · rw [if_pos hchain] at h
    cases happ : appendViaChain chain node st1.currentChunk with
    | none => rw [happ] at h; exact absurd h (by simp)
    | some r =>
      rw [happ] at h
      simp only [Option.some.injEq] at h
      subst h
      have hpr := appendViaChain_proj proj hG chain node st1.currentChunk r hc happ
      show (st1.finalChunks.flatMap fun c => c.flatMap proj) ++
          r.1.flatMap proj = projChunks proj st ++ proj node
      rw [hpr]
      simp only [projChunks, List.append_assoc] at h2 ⊢
      exact h2
  · rw [if_neg hchain] at h
    simp only [Option.some.injEq] at h
    subst h
    show (st1.finalChunks.flatMap fun c => c.flatMap proj) ++
        (st1.currentChunk ++ [node]).flatMap proj =
        projChunks proj st ++ proj node
    simp only [List.flatMap_append, List.flatMap_cons, List.flatMap_nil,
      List.append_nil]
    simp only [projChunks, List.append_assoc] at h2 ⊢
    exact h2

/-- `addNode` on any node that is not an at-rule with a body goes through
the normal flow. -/
theorem addNode_eq_normalFlow (size : Nat) (node : Node) (chain : List Node)
    (st : ChunkState)
    (hshape : ∀ n p kids, node ≠ .atrule n p (some kids)) :
    addNode size node chain st =
      normalFlow size node node.bytes chain
        (noteVisit size node node.bytes st) := by
  cases node with
  | rule sel kids => rfl
  | atrule n p opt =>
    cases opt with
    | none => rfl
    | some kids => exact absurd rfl (hshape n p kids)
  | decl p v => rfl
  | comment t => rfl

/-- Content preservation for `addNode`/`addNodes`: every successful call
appends exactly the projection of the processed node(s) to the projected
content of the state. -/
theorem addNode_proj_master (proj : Node → List Node) (hG : GoodProj proj)
    (size : Nat) :
    ∀ k : Nat,
      (∀ node : Node, sizeOf node < k → ∀ chain st st', ChainOK chain →
        addNode size node chain st = some st' →
        projChunks proj st' = projChunks proj st ++ proj node) ∧
      (∀ ns : List Node, sizeOf ns < k → ∀ chain st st', ChainOK chain →
        addNodes size ns chain st = some st' →
        projChunks proj st' = projChunks proj st ++ ns.flatMap proj) := by
  intro k
  induction k with
  | zero => exact ⟨fun node h => absurd h (by omega),
      fun ns h => absurd h (by omega)⟩
  | succ k IH =>
    constructor
    · intro node hk chain st st' hc h
      cases node with
      | atrule nm pp opt =>
        cases opt with
        | some kids =>
          rw [show addNode size (.atrule nm pp (some kids)) chain st =
            (let nodeSize := (Node.atrule nm pp (some kids)).bytes
             let st1 := noteVisit size (.atrule nm pp (some kids)) nodeSize st
             if kids.length > 0 ∧ size ≠ 0 ∧
                 st1.currentChunkSize + nodeSize > size then
               if nm ∈ nonSplittableAtRules then
                 some (atomicPlace (.atrule nm pp (some kids)) nodeSize chain st1)
               else if ¬ hasActualContent kids then
                 some (noContentPlace (.atrule nm pp (some kids)) nodeSize chain st1)
               else
                 addNodes size kids (chain ++ [.atrule nm pp (some kids)]) st1
             else normalFlow size (.atrule nm pp (some kids)) nodeSize chain st1)
            from rfl] at h
          simp only [] at h
          split at h
          · split at h
            · simp only [Option.some.injEq] at h
              subst h
              rw [projChunks_atomicPlace proj hG _ _ _ _ hc,
                projChunks_noteVisit]
            · split at h
              · simp only [Option.some.injEq] at h
                subst h
                rw [projChunks_noContentPlace, projChunks_noteVisit]
              · rename_i hguard hatomic hcontent
                have hkids : sizeOf kids < k := by
                  have : sizeOf kids < sizeOf (Node.atrule nm pp (some kids)) := by
                    simp
                    omega
                  omega
                have hchain2 : ChainOK (chain ++ [Node.atrule nm pp (some kids)]) := by
                  intro c hcm
                  rcases List.mem_append.1 hcm with hmem | hmem
                  · exact hc c hmem
                  · simp at hmem
                    subst hmem
                    simpa [Node.nameOf] using hatomic
                have := (IH).2 kids hkids _ _ _ hchain2 h
                rw [this, projChunks_noteVisit,
                  hG.1 nm pp kids (by simpa [Node.nameOf] using hatomic)]
          · exact (normalFlow_proj proj hG size _ _ chain _ st' hc h).trans
              (by rw [projChunks_noteVisit])
        | none =>
          rw [addNode_eq_normalFlow size _ chain st (by intro a b c hcon; exact absurd hcon (by simp))] at h
          exact (normalFlow_proj proj hG size _ _ chain _ st' hc h).trans
            (by rw [projChunks_noteVisit])
      | rule sel kids =>
        rw [addNode_eq_normalFlow size _ chain st (by intro a b c hcon; exact absurd hcon (by simp))] at h
        exact (normalFlow_proj proj hG size _ _ chain _ st' hc h).trans
          (by rw [projChunks_noteVisit])
      | decl p v =>
        rw [addNode_eq_normalFlow size _ chain st (by intro a b c hcon; exact absurd hcon (by simp))] at h
        exact (normalFlow_proj proj hG size _ _ chain _ st' hc h).trans
          (by rw [projChunks_noteVisit])
      | comment t =>
        rw [addNode_eq_normalFlow size _ chain st (by intro a b c hcon; exact absurd hcon (by simp))] at h
        exact (normalFlow_proj proj hG size _ _ chain _ st' hc h).trans
          (by rw [projChunks_noteVisit])
    · intro ns hk chain st st' hc h
      cases ns with
      | nil =>
        rw [show addNodes size [] chain st = some st from rfl] at h
        simp only [Option.some.injEq] at h
        subst h
        simp
      | cons n rest =>
        rw [show addNodes size (n :: rest) chain st =
          (match addNode size n chain st with
           | none => none
           | some st1 => addNodes size rest chain st1) from rfl] at h
        cases hstep : addNode size n chain st with
        | none => rw [hstep] at h; exact absurd h (by simp)
        | some st1 =>
          rw [hstep] at h
          simp only [] at h
          have hn : sizeOf n < k := by
            have : sizeOf n < sizeOf (n :: rest) := by
              simp only [List.cons.sizeOf_spec]; omega
            omega
          have hrest : sizeOf rest < k := by
            have : sizeOf rest < sizeOf (n :: rest) := by
              simp only [List.cons.sizeOf_spec]; omega
            omega
          have e1 := (IH).1 n hn chain st st1 hc hstep
          have e2 := (IH).2 rest hrest chain st1 st' hc h
          rw [e2, e1]
          simp [List.append_assoc]

theorem startNewChunk_currentChunk (st : ChunkState) :
    (startNewChunk st).currentChunk = [] := by
  unfold startNewChunk
  split <;> rfl

theorem ChainOK_nil : ChainOK [] := by
  intro c hc
  cases hc

/-- Content preservation for the whole `Once` pass, for any projection the
algorithm treats transparently. -/
theorem runOnce_proj (proj : Node → List Node) (hG : GoodProj proj)
    (size : Nat) (ns : List Node) (res : RunResult)
    (h : runOnce size ns = some res) :
    res.chunks.flatMap (fun c => c.flatMap proj) = ns.flatMap proj := by
  unfold runOnce at h
  cases hA : addNodes size ns [] initState with
  | none => rw [hA] at h; exact absurd h (by simp)
  | some st =>
    rw [hA] at h
    simp only [Option.some.injEq] at h
    subst h
    have hm := (addNode_proj_master proj hG size (sizeOf ns + 1)).2 ns
      (by omega) [] initState st ChainOK_nil hA
    have hfin := projChunks_startNewChunk proj st
    calc (startNewChunk st).finalChunks.flatMap (fun c => c.flatMap proj)
        = projChunks proj (startNewChunk st) := by
          simp [projChunks, startNewChunk_currentChunk]
      _ = projChunks proj st := hfin
      _ = ns.flatMap proj := by simpa [projChunks, initState] using hm

theorem goodProj_flattenLeaves : GoodProj flattenLeaves := by
  constructor
  · intro n p kids _
    simp [flattenLeaves, flattenLeavesList_eq]
  · intro n p _
    simp [flattenLeaves]

theorem goodProj_atomicSubtrees : GoodProj atomicSubtrees := by
  constructor
  · intro n p kids hn
    simp [atomicSubtrees, hn, atomicSubtreesList_eq]
  · intro n p hn
    simp [atomicSubtrees, hn]

/-! ## Inputs used by witnesses and counterexamples -/

/-- `.a{color:red;}`, 14 bytes under the canonical printer. -/
def wRule1 : Node := .rule ".a" [.decl "color" "red"]

/-- A splittable media query with two rules. -/
def wMedia : Node :=
  .atrule "media" "x" (some [.rule ".b" [.decl "color" "blue"],
    .rule ".c" [.decl "color" "green"]])

/-- A rule followed by a media query that has to be split at limit 30. -/
def wL : List Node := [wRule1, wMedia]

/-- A non-splittable keyframes block. -/
def wKeyframes : Node :=
  .atrule "keyframes" "spin" (some [.rule "0%" [.decl "opacity" "0"],
    .rule "100%" [.decl "opacity" "1"]])

/-- A body-less `@media a` directive (its `nodes` property is absent). -/
def cxA0 : Node := .atrule "media" "a" none

/-- `@media a { @media b { .x{} } }`: at limit 20 its rule is placed with
the chain `[@media a, @media b]` open, and shell reuse matches the
body-less `cxA0` clone mid-chain — where the source throws on
`currentParent.nodes.length` (src/index.js:134). -/
def cxA1 : Node :=
  .atrule "media" "a" (some [.atrule "media" "b" (some [.rule ".x" []])])

/-- A keyframes block placed after the crashing pair. -/
def cxK : Node := .atrule "keyframes" "k" (some [.rule "0%" []])

/-! ## Claim C1 — lossless leaf content -/

/-- Claim C1 as stated is false: on the well-formed input
`[@media a; , @media a{@media b{.x{}}}]` at limit 20 the pass throws
(shell reuse descends into the body-less `@media a` mid-chain and the
source reads `.nodes.length` of `undefined`, src/index.js:134), so no
chunks are produced at all, while the input carries the leaf content
`[.x{}]` — nothing is reproduced, let alone exactly once. -/
theorem runOnce_leaf_content_crash_counterexample :
    runOnce 20 [cxA0, cxA1] = none ∧
    [cxA0, cxA1].flatMap flattenLeaves = [Node.rule ".x" []] := by
  exact ⟨rfl, rfl⟩

/-- C1 (amended): for every input and every size limit on which processing *completes*,
the ordered concatenation of the leaf content (selectors + declarations,
at-rule bodies) of all produced chunks — looking through at-rule wrappers,
hence ignoring reconstructed empty shells — equals the input's leaf content
in original document order, each leaf-bearing node appearing exactly
once. -/
theorem runOnce_leaf_content_lossless (size : Nat) (ns : List Node)
    (res : RunResult) (h : runOnce size ns = some res) :
    res.chunks.flatMap (fun c => c.flatMap flattenLeaves) =
      ns.flatMap flattenLeaves :=
  runOnce_proj flattenLeaves goodProj_flattenLeaves size ns res h

/-- Witness for C1 at a concrete input whose media query is split into two
chunks. -/
theorem runOnce_leaf_content_lossless_witness :
    (runOnce 30 wL).map
        (fun res => res.chunks.flatMap (fun c => c.flatMap flattenLeaves)) =
      some (wL.flatMap flattenLeaves) := by
  have h1 : (runOnce 30 wL).isSome = true := rfl
  have h2 := runOnce_leaf_content_lossless 30 wL _ (Option.some_get h1).symm
  rw [show runOnce 30 wL = some ((runOnce 30 wL).get h1) from
    (Option.some_get h1).symm]
  simp only [Option.map_some']
  exact congrArg some h2

/-! ## Claim C3 — atomicity of the non-splittable at-rules -/

/-- Claim C3 as stated is false: appending a keyframes block after the
crashing pair of the C1 counterexample gives a well-formed input on which
the pass throws before reaching it, so the keyframes subtree appears in
*zero* chunks, not exactly one. -/
theorem runOnce_atomic_subtrees_crash_counterexample :
    runOnce 20 [cxA0, cxA1, cxK] = none ∧
    [cxA0, cxA1, cxK].flatMap atomicSubtrees = [cxK] := by
  exact ⟨rfl, rfl⟩

/-- C3 (amended): for every input and limit on which processing *completes*,
the sequence of outermost keyframes/font-face/page/counter-style
subtrees across all produced chunks, in order, equals that of the input:
every such at-rule appears whole (as its entire subtree), exactly once,
inside exactly one chunk. -/
theorem runOnce_atomic_subtrees_preserved (size : Nat) (ns : List Node)
    (res : RunResult) (h : runOnce size ns = some res) :
    res.chunks.flatMap (fun c => c.flatMap atomicSubtrees) =
      ns.flatMap atomicSubtrees :=
  runOnce_proj atomicSubtrees goodProj_atomicSubtrees size ns res h

/-- Witness for C3: a keyframes block larger than the limit is still placed
whole. -/
theorem runOnce_atomic_subtrees_preserved_witness :
    (runOnce 1 [wKeyframes, wRule1]).map
        (fun res => res.chunks.flatMap (fun c => c.flatMap atomicSubtrees)) =
      some ([wKeyframes, wRule1].flatMap atomicSubtrees) := by
  have h1 : (runOnce 1 [wKeyframes, wRule1]).isSome = true := rfl
  have h2 := runOnce_atomic_subtrees_preserved 1 [wKeyframes, wRule1] _
    (Option.some_get h1).symm
  rw [show runOnce 1 [wKeyframes, wRule1] =
    some ((runOnce 1 [wKeyframes, wRule1]).get h1) from
    (Option.some_get h1).symm]
  simp only [Option.map_some']
  exact congrArg some h2

/-! ## Claims C4, C5, C8 — runs that never split -/

theorem listBytes_cons (n : Node) (rest : List Node) :
    listBytes (n :: rest) = n.bytes + listBytes rest := by
  simp [listBytes]

/-- The normal flow with an empty parent chain and no overflow: plain append
to the current chunk. -/
theorem normalFlow_nil_noflush (size : Nat) (node : Node) (ns : Nat)
    (st : ChunkState)
    (h : ¬ (size ≠ 0 ∧ st.currentChunkSize + ns > size ∧
        st.currentChunk.length > 0)) :
    normalFlow size node ns [] st = some
      { st with
        currentChunk := st.currentChunk ++ [node],
        currentChunkSize := st.currentChunkSize + ns,
        curLog := st.curLog ++ [⟨node, [], ns, 0, .normal⟩] } := by
  unfold normalFlow
  dsimp only
  rw [if_neg h, if_neg (by simp)]

/-- The normal flow with an empty parent chain and an overflowing non-empty
chunk: flush, then plain append. -/
theorem normalFlow_nil_flush (size : Nat) (node : Node) (ns : Nat)
    (st : ChunkState)
    (h : size ≠ 0 ∧ st.currentChunkSize + ns > size ∧
        st.currentChunk.length > 0) :
    normalFlow size node ns [] st = some
      { startNewChunk st with
        currentChunk := (startNewChunk st).currentChunk ++ [node],
        currentChunkSize := (startNewChunk st).currentChunkSize + ns,
        curLog := (startNewChunk st).curLog ++ [⟨node, [], ns, 0, .normal⟩] } := by
  unfold normalFlow
  dsimp only
  rw [if_pos h, if_neg (by simp)]

/-- When the limit is 0 (all checks are disabled by `size &&`) or everything
still fits, `addNodes` with an empty chain just appends every node to the
current chunk, emitting no warning. -/
theorem addNodes_all_fit (size : Nat) :
    ∀ (ns : List Node) (st : ChunkState),
      (size = 0 ∨ st.currentChunkSize + listBytes ns ≤ size) →
      addNodes size ns [] st = some
        { st with
          currentChunk := st.currentChunk ++ ns,
          currentChunkSize := st.currentChunkSize + listBytes ns,
          curLog := st.curLog ++
            ns.map (fun n => ⟨n, [], n.bytes, 0, .normal⟩),
          visitLog := st.visitLog ++ ns.map (fun n => (n, n.bytes)) } := by
  intro ns
  induction ns with
  | nil =>
    intro st _
    show some st = _
    simp [listBytes]
  | cons n rest ih =>
    intro st hfit
    have hnw : ¬ (size ≠ 0 ∧ n.bytes > size) := by
      rcases hfit with h0 | hle
      · simp [h0]
      · rw [listBytes_cons] at hle
        have := bytes_pos n
        intro hcon
        omega
    have hnote : noteVisit size n n.bytes st =
        { st with visitLog := st.visitLog ++ [(n, n.bytes)] } := by
      unfold noteVisit
      rw [if_neg hnw]
    have hflush : ¬ (size ≠ 0 ∧ st.currentChunkSize + n.bytes > size ∧
        st.currentChunk.length > 0) := by
      rcases hfit with h0 | hle
      · simp [h0]
      · rw [listBytes_cons] at hle
        intro hcon
        omega
    have hred : addNode size n [] st =
        normalFlow size n n.bytes [] (noteVisit size n n.bytes st) := by
      cases n with
      | rule sel kids => rfl
      | decl p v => rfl
      | comment t => rfl
      | atrule nm pp opt =>
        cases opt with
        | none => rfl
        | some kids =>
          rw [show addNode size (.atrule nm pp (some kids)) [] st =
            (let nodeSize := (Node.atrule nm pp (some kids)).bytes
             let st1 := noteVisit size (.atrule nm pp (some kids)) nodeSize st
             if kids.length > 0 ∧ size ≠ 0 ∧
                 st1.currentChunkSize + nodeSize > size then
               if nm ∈ nonSplittableAtRules then
                 some (atomicPlace (.atrule nm pp (some kids)) nodeSize [] st1)
               else if ¬ hasActualContent kids then
                 some (noContentPlace (.atrule nm pp (some kids)) nodeSize [] st1)
               else
                 addNodes size kids ([] ++ [.atrule nm pp (some kids)]) st1
             else normalFlow size (.atrule nm pp (some kids)) nodeSize [] st1)
            from rfl]
          simp only []
          rw [if_neg]
          intro hcon
          rcases hfit with h0 | hle
      
          · exact hcon.2.1 h0
          · rw [listBytes_cons] at hle
            rw [hnote] at hcon
            have : st.currentChunkSize + (Node.atrule nm pp (some kids)).bytes > size :=
              hcon.2.2
            omega
    have hstep : addNode size n [] st = some
        { st with
          currentChunk := st.currentChunk ++ [n],
          currentChunkSize := st.currentChunkSize + n.bytes,
          curLog := st.curLog ++ [⟨n, [], n.bytes, 0, .normal⟩],
          visitLog := st.visitLog ++ [(n, n.bytes)] } := by
      rw [hred, hnote, normalFlow_nil_noflush size n n.bytes _ (by exact hflush)]
    rw [show addNodes size (n :: rest) [] st =
      (match addNode size n [] st with
       | none => none
       | some st1 => addNodes size rest [] st1) from rfl, hstep]
    simp only []
    rw [ih _ (by
      rcases hfit with h0 | hle
      · exact Or.inl h0
      · rw [listBytes_cons] at hle
        exact Or.inr (by simp; omega))]
    simp [List.append_assoc, listBytes_cons, Nat.add_assoc]

/-- Claim C4 as stated is false: the pass clears the input root
(`root.removeAll()`, `src/index.js:182`), so the source tree is *not*
unchanged after processing. -/
theorem runOnce_root_unchanged_counterexample :
    (runOnce 100 [wRule1]).map (fun r => r.rootAfter) = some [] ∧
      ([] : List Node) ≠ [wRule1] := by
  exact ⟨rfl, by simp⟩

/-- C4 (amended): insertions into chunks clone nodes, but after processing
completes the input root has been emptied (`root.removeAll()`), so the
caller is left with a cleared root, not the original tree. -/
theorem runOnce_clears_root (size : Nat) (ns : List Node) (res : RunResult)
    (h : runOnce size ns = some res) : res.rootAfter = [] := by
  unfold runOnce at h
  cases hA : addNodes size ns [] initState with
  | none => rw [hA] at h; exact absurd h (by simp)
  | some st =>
    rw [hA] at h
    simp only [Option.some.injEq] at h
    subst h
    rfl

/-- Witness for the amended C4. -/
theorem runOnce_clears_root_witness :
    (runOnce 100 [wRule1]).map (fun res => res.rootAfter) =
      some ([] : List Node) := by
  have h1 : (runOnce 100 [wRule1]).isSome = true := rfl
  have h2 := runOnce_clears_root 100 [wRule1] _ (Option.some_get h1).symm
  rw [show runOnce 100 [wRule1] = some ((runOnce 100 [wRule1]).get h1) from
    (Option.some_get h1).symm]
  simp only [Option.map_some']
  exact congrArg some h2

/-- Claim C5 as stated is false: with `size = 0` the guards `size && …` are
all disabled (0 is falsy), so *nothing* is ever split: two non-empty rules
end up together in a single chunk instead of one chunk each. -/
theorem runOnce_zero_limit_counterexample :
    (runOnce 0 [wRule1, wRule1]).map (fun r => r.chunks) =
      some [[wRule1, wRule1]] ∧
    (runOnce 0 [wRule1, wRule1]).map (fun r => r.chunks.length) = some 1 := by
  exact ⟨rfl, rfl⟩

/-- C5 (amended): a limit of 0 disables splitting entirely — every
non-empty input yields exactly one chunk holding the whole input, and no
warnings. -/
theorem runOnce_zero_limit (ns : List Node) (h : ns ≠ []) :
    ∃ res, runOnce 0 ns = some res ∧ res.chunks = [ns] ∧
      res.warnings = [] := by
  have hfit := addNodes_all_fit 0 ns initState (Or.inl rfl)
  unfold runOnce
  rw [hfit]
  dsimp only
  refine ⟨_, rfl, ?_, ?_⟩
  · have hl : ns.length > 0 := List.length_pos.2 h
    simp [startNewChunk, initState, hl]
  · unfold startNewChunk
    split <;> rfl

/-- Witness for the amended C5. -/
theorem runOnce_zero_limit_witness :
    (runOnce 0 [wRule1]).map (fun res => (res.chunks, res.warnings)) =
      some ([[wRule1]], ([] : List String)) := by
  obtain ⟨res, hres, hc, hw⟩ := runOnce_zero_limit [wRule1] (by simp)
  rw [hres]
  simp only [Option.map_some']
  rw [hc, hw]

/-- Claim C8 as stated is false on the empty input: its total size fits any
limit, yet zero chunks are produced rather than exactly one. -/
theorem runOnce_no_split_counterexample :
    listBytes ([] : List Node) ≤ 100 ∧
      (runOnce 100 []).map (fun r => r.chunks.length) = some 0 := by
  exact ⟨by decide, rfl⟩

/-- C8 (amended): every *non-empty* input whose total serialized size is at
most the limit is emitted as exactly one chunk containing the whole
input. -/
theorem runOnce_no_split (size : Nat) (ns : List Node) (h1 : ns ≠ [])
    (h2 : listBytes ns ≤ size) :
    ∃ res, runOnce size ns = some res ∧ res.chunks = [ns] := by
  have hfit := addNodes_all_fit size ns initState
    (Or.inr (by simpa [initState] using h2))
  unfold runOnce
  rw [hfit]
  dsimp only
  refine ⟨_, rfl, ?_⟩
  have hl : ns.length > 0 := List.length_pos.2 h1
  simp [startNewChunk, initState, hl]

/-- Witness for the amended C8. -/
theorem runOnce_no_split_witness :
    (runOnce 100 [wRule1]).map (fun res => res.chunks) =
      some [[wRule1]] := by
  obtain ⟨res, hres, hc⟩ := runOnce_no_split 100 [wRule1] (by simp) (by decide)
  rw [hres]
  simp only [Option.map_some']
  rw [hc]

/-! ## Exact byte accounting of the chunk builder -/

/-- Serialized size of an empty shell with the given name and params. -/
def shellBytesOf (n p : String) : Nat := (Node.atrule n p (some [])).bytes

theorem bytes_atrule_someS (n p : String) (kids : List Node) :
    (Node.atrule n p (some kids)).bytes = shellBytesOf n p + listBytes kids := by
  simp only [shellBytesOf, Node.bytes, Node.toStr, strBytes_append,
    strBytes_listToStr]
  have h0 : listBytes ([] : List Node) = 0 := by simp [listBytes]
  omega

theorem bytes_atrule_noneS (n p : String) :
    (Node.atrule n p none).bytes = shellBytesOf n p := by
  simp only [shellBytesOf, Node.bytes, Node.toStr, strBytes_append,
    strBytes_listToStr]
  have h0 : listBytes ([] : List Node) = 0 := by simp [listBytes]
  have h1 : strBytes "\x7b\x7d" = 2 := by decide
  have h2 : strBytes "\x7b" = 1 := by decide
  have h3 : strBytes "\x7d" = 1 := by decide
  omega

theorem shellOf_bytes (q : Node) :
    (shellOf q).bytes = shellBytesOf q.nameOf q.paramsOf := rfl

theorem listBytes_append (l₁ l₂ : List Node) :
    listBytes (l₁ ++ l₂) = listBytes l₁ + listBytes l₂ := by
  simp [listBytes]

/-- The running counter update of `appendViaChain` matches the serialized
size growth of the target exactly. -/
theorem appendViaChain_bytes :
    ∀ (chain : List Node) (node : Node) (target : List Node)
      (r : List Node × Nat),
      appendViaChain chain node target = some r →
      listBytes r.1 = listBytes target + r.2 + node.bytes := by
  have h0 : listBytes ([] : List Node) = 0 := by simp [listBytes]
  intro chain
  induction chain with
  | nil =>
    intro node target r h
    simp only [appendViaChain, Option.some.injEq] at h
    subst h
    simp only [listBytes_append, listBytes_cons]
    omega
  | cons p rest ih =>
    intro node target r h
    rw [appendViaChain] at h
    cases hL : target.getLast? with
    | none =>
      rw [hL] at h
      dsimp only at h
      rcases Option.map_eq_some'.1 h with ⟨r0, h0', hr⟩
      subst hr
      have hbase := ih node [] r0 h0'
      simp only [listBytes_append, listBytes_cons, bytes_atrule_someS,
        shellOf_bytes] at hbase ⊢
      omega
    | some last =>
      rw [hL] at h
      cases last with
      | atrule n2 p2 optKids =>
        dsimp only at h
        rcases List.getLast?_eq_some_iff.1 hL with ⟨ys, hys⟩
        by_cases hmatch : n2 = p.nameOf ∧ p2 = p.paramsOf
        · rw [if_pos hmatch] at h
          cases optKids with
          | none =>
            cases rest with
            | cons q qs => exact absurd h (by simp)
            | nil =>
              simp only [Option.some.injEq] at h
              subst h hys
              rw [List.dropLast_concat]
              simp only [listBytes_append, listBytes_cons, bytes_atrule_someS,
                bytes_atrule_noneS]
              omega
          | some kids =>
            rcases Option.map_eq_some'.1 h with ⟨r0, h0', hr⟩
            subst hr
            have hrec := ih node kids r0 h0'
            subst hys
            rw [List.dropLast_concat]
            simp only [listBytes_append, listBytes_cons, bytes_atrule_someS]
            omega
        · rw [if_neg hmatch] at h
          rcases Option.map_eq_some'.1 h with ⟨r0, h0', hr⟩
          subst hr
          have hbase := ih node [] r0 h0'
          simp only [listBytes_append, listBytes_cons, bytes_atrule_someS,
            shellOf_bytes] at hbase ⊢
          omega
      | rule sel kids =>
        dsimp only at h
        rcases Option.map_eq_some'.1 h with ⟨r0, h0', hr⟩
        subst hr
        have hbase := ih node [] r0 h0'
        simp only [listBytes_append, listBytes_cons, bytes_atrule_someS,
          shellOf_bytes] at hbase ⊢
        omega
      | decl a b =>
        dsimp only at h
        rcases Option.map_eq_some'.1 h with ⟨r0, h0', hr⟩
        subst hr
        have hbase := ih node [] r0 h0'
        simp only [listBytes_append, listBytes_cons, bytes_atrule_someS,
          shellOf_bytes] at hbase ⊢
        omega
      | comment t =>
        dsimp only at h
        rcases Option.map_eq_some'.1 h with ⟨r0, h0', hr⟩
        subst hr
        have hbase := ih node [] r0 h0'
        simp only [listBytes_append, listBytes_cons, bytes_atrule_someS,
          shellOf_bytes] at hbase ⊢
        omega

/-- `appendViaChain` never returns an empty target. -/
theorem appendViaChain_ne_nil :
    ∀ (chain : List Node) (node : Node) (target : List Node)
      (r : List Node × Nat),
      appendViaChain chain node target = some r → r.1 ≠ [] := by
  intro chain
  cases chain with
  | nil =>
    intro node target r h
    simp only [appendViaChain, Option.some.injEq] at h
    subst h
    simp
  | cons p rest =>
    intro node target r h
    rw [appendViaChain] at h
    cases hL : target.getLast? with
    | none =>
      rw [hL] at h
      dsimp only at h
      rcases Option.map_eq_some'.1 h with ⟨r0, h0, hr⟩
      subst hr
      simp
    | some last =>
      rw [hL] at h
      cases last with
      | atrule n2 p2 optKids =>
        dsimp only at h
        by_cases hmatch : n2 = p.nameOf ∧ p2 = p.paramsOf
        · rw [if_pos hmatch] at h
          cases optKids with
          | none =>
            cases rest with
            | cons q qs => exact absurd h (by simp)
            | nil =>
              simp only [Option.some.injEq] at h
              subst h
              simp
          | some kids =>
            rcases Option.map_eq_some'.1 h with ⟨r0, h0, hr⟩
            subst hr
            simp
        · rw [if_neg hmatch] at h
          rcases Option.map_eq_some'.1 h with ⟨r0, h0, hr⟩
          subst hr
          simp
      | rule sel kids =>
        dsimp only at h
        rcases Option.map_eq_some'.1 h with ⟨r0, h0, hr⟩
        subst hr
        simp
      | decl a b =>
        dsimp only at h
        rcases Option.map_eq_some'.1 h with ⟨r0, h0, hr⟩
        subst hr
        simp
      | comment t =>
        dsimp only at h
        rcases Option.map_eq_some'.1 h with ⟨r0, h0, hr⟩
        subst hr
        simp

/-- The shells built by the non-splittable branch account exactly for the
size of the wrapped result. -/
theorem freshWrap_bytes :
    ∀ (chain : List Node) (node : Node),
      (freshWrap chain node).1.bytes = (freshWrap chain node).2 + node.bytes := by
  intro chain
  induction chain with
  | nil => intro node; simp [freshWrap]
  | cons p rest ih =>
    intro node
    simp only [freshWrap, bytes_atrule_someS, shellOf_bytes, listBytes_cons]
    have h0 : listBytes ([] : List Node) = 0 := by simp [listBytes]
    have := ih node
    omega

/-! ## The state invariant: exact sizes, budget discipline, warnings -/

/-- Total byte contribution recorded in a ghost chunk log. -/
def logBytesTotal (log : List AppendLog) : Nat :=
  (log.map (fun e => e.nodeBytes + e.shellBytes)).sum

/-- The discipline one chunk (with its ghost log) obeys: its serialized
size is exactly the total recorded by its appends, it is empty exactly when
its log is, and — for a positive limit — it exceeds the limit by at most
the shells of its last append, unless that last append was the unchecked
"no actual content" branch, or the chunk consists of a single append whose
node alone exceeds the limit. -/
def ChunkOK (size : Nat) (c : List Node) (log : List AppendLog) : Prop :=
  listBytes c = logBytesTotal log ∧ (c = [] ↔ log = []) ∧
  (size ≠ 0 → ∀ last, log.getLast? = some last →
    listBytes c ≤ size + last.shellBytes ∨ last.tag = .noContent ∨
      (log.length = 1 ∧ size < last.nodeBytes))

/-- The warnings demanded by the visit log: one per oversize visit (none
when the limit is 0, where the source's `size &&` guard is falsy). -/
def oversizeWarnings (size : Nat) (vs : List (Node × Nat)) : List String :=
  (vs.filter (fun v => decide (size ≠ 0 ∧ v.2 > size))).map
    (fun v => warnMsg v.1 v.2 size)

/-- The invariant maintained by the `Once` pass. -/
def StateInv (size : Nat) (st : ChunkState) : Prop :=
  st.currentChunkSize = listBytes st.currentChunk ∧
  ChunkOK size st.currentChunk st.curLog ∧
  st.chunkLogs.length = st.finalChunks.length ∧
  (∀ c ∈ st.finalChunks, c ≠ []) ∧
  (∀ pr ∈ st.finalChunks.zip st.chunkLogs, ChunkOK size pr.1 pr.2) ∧
  st.warnings = oversizeWarnings size st.visitLog

theorem logBytesTotal_append_one (log : List AppendLog) (e : AppendLog) :
    logBytesTotal (log ++ [e]) = logBytesTotal log + (e.nodeBytes + e.shellBytes) := by
  simp [logBytesTotal]

theorem ChunkOK_nil (size : Nat) : ChunkOK size [] [] := by
  refine ⟨by simp [listBytes, logBytesTotal], by simp, ?_⟩
  intro _ last hlast
  simp at hlast

theorem StateInv_initState (size : Nat) : StateInv size initState := by
  refine ⟨by simp [initState, listBytes], ChunkOK_nil size, by simp [initState],
    by simp [initState], by simp [initState], by simp [initState, oversizeWarnings]⟩

theorem oversizeWarnings_append_one (size : Nat) (vs : List (Node × Nat))
    (v : Node × Nat) :
    oversizeWarnings size (vs ++ [v]) =
      oversizeWarnings size vs ++
        (if size ≠ 0 ∧ v.2 > size then [warnMsg v.1 v.2 size] else []) := by
  simp only [oversizeWarnings, List.filter_append, List.map_append]
  congr 1
  by_cases hc : size ≠ 0 ∧ v.2 > size
  · rw [if_pos hc]
    simp [List.filter, hc]
  · rw [if_neg hc]
    simp [List.filter, hc]

theorem StateInv_noteVisit (size : Nat) (node : Node) (nb : Nat)
    (st : ChunkState) (hInv : StateInv size st) :
    StateInv size (noteVisit size node nb st) := by
  obtain ⟨h1, h2, h3, h4, h5, h6⟩ := hInv
  unfold noteVisit
  by_cases hc : size ≠ 0 ∧ nb > size
  · rw [if_pos hc]
    exact ⟨h1, h2, h3, h4, h5, by
      simp only [oversizeWarnings_append_one, h6]
      rw [if_pos hc]⟩
  · rw [if_neg hc]
    exact ⟨h1, h2, h3, h4, h5, by
      simp only [oversizeWarnings_append_one, h6]
      rw [if_neg hc]
      simp⟩

theorem StateInv_startNewChunk (size : Nat) (st : ChunkState)
    (hInv : StateInv size st) : StateInv size (startNewChunk st) := by
  obtain ⟨h1, h2, h3, h4, h5, h6⟩ := hInv
  unfold startNewChunk
  by_cases hne : st.currentChunk.length > 0
  · rw [if_pos hne]
    have hcur : st.currentChunk ≠ [] := by
      intro hcon
      rw [hcon] at hne
      simp at hne
    refine ⟨by simp [listBytes], ChunkOK_nil size, by simp [h3], ?_, ?_, h6⟩
    · intro c hc
      rcases List.mem_append.1 hc with hmem | hmem
      · exact h4 c hmem
      · simp at hmem
        subst hmem
        exact hcur
    · intro pr hpr
      rw [List.zip_append (by omega)] at hpr
      rcases List.mem_append.1 hpr with hmem | hmem
      · exact h5 pr hmem
      · simp only [List.zip_cons_cons, List.zip_nil_right,
          List.mem_singleton] at hmem
        subst hmem
        exact h2
  · rw [if_neg hne]
    exact ⟨by simp [listBytes], ChunkOK_nil size, h3, h4, h5, h6⟩

theorem listBytes_nil : listBytes ([] : List Node) = 0 := by simp [listBytes]

/-- Appending one logged unit to a chunk keeps the chunk discipline. -/
theorem ChunkOK_append (size : Nat) (c : List Node) (log : List AppendLog)
    (hOK : ChunkOK size c log) (c' : List Node) (e : AppendLog)
    (hbytes : listBytes c' = listBytes c + (e.nodeBytes + e.shellBytes))
    (hne : c' ≠ [])
    (hfits : size ≠ 0 →
      listBytes c' ≤ size + e.shellBytes ∨ e.tag = .noContent ∨
        (log = [] ∧ size < e.nodeBytes)) :
    ChunkOK size c' (log ++ [e]) := by
  obtain ⟨hb, _, _⟩ := hOK
  refine ⟨by rw [hbytes, hb, logBytesTotal_append_one], ?_, ?_⟩
  · constructor
    · intro hcon; exact absurd hcon hne
    · intro hcon; simp at hcon
  · intro hsz last hlast
    rw [List.getLast?_concat] at hlast
    simp only [Option.some.injEq] at hlast
    subst hlast
    rcases hfits hsz with hf | hf | hf
    · exact Or.inl hf
    · exact Or.inr (Or.inl hf)
    · exact Or.inr (Or.inr ⟨by simp [hf.1], hf.2⟩)

theorem StateInv_noContentPlace (size : Nat) (node : Node)
    (chain : List Node) (st : ChunkState) (hInv : StateInv size st) :
    StateInv size (noContentPlace node node.bytes chain st) := by
  obtain ⟨h1, h2, h3, h4, h5, h6⟩ := hInv
  unfold noContentPlace
  refine ⟨?_, ?_, h3, h4, h5, h6⟩
  · rw [listBytes_append, h1]
    simp [listBytes]
  · exact ChunkOK_append size st.currentChunk st.curLog h2
      (st.currentChunk ++ [node])
      ⟨node, chain, node.bytes, 0, .noContent⟩
      (by rw [listBytes_append]; simp [listBytes])
      (by simp)
      (fun _ => Or.inr (Or.inl rfl))

theorem StateInv_atomicPlace (size : Nat) (node : Node)
    (chain : List Node) (st : ChunkState) (hInv : StateInv size st) :
    StateInv size (atomicPlace node node.bytes chain st) := by
  unfold atomicPlace
  set st1 := if st.currentChunk.length > 0 then startNewChunk st else st
    with hst1
  have hInv1 : StateInv size st1 := by
    rw [hst1]; split
    · exact StateInv_startNewChunk size st hInv
    · exact hInv
  have hcur : st1.currentChunk = [] := by
    rw [hst1]; split
    · exact startNewChunk_currentChunk st
    · rename_i hlen
      cases hc : st.currentChunk with
      | nil => rfl
      | cons a l => rw [hc] at hlen; simp at hlen
  have hlog : st1.curLog = [] := (hInv1.2.1.2.1).1 hcur
  have hcnt : st1.currentChunkSize = 0 := by
    rw [hInv1.1, hcur, listBytes_nil]
  obtain ⟨h1, h2, h3, h4, h5, h6⟩ := hInv1
  rw [hcur, hlog] at h2
  split
  · -- fresh shells around the whole node
    dsimp only
    refine ⟨?_, ?_, h3, h4, h5, h6⟩
    · rw [listBytes_append, hcur, hcnt, listBytes_nil]
      have := freshWrap_bytes chain node
      simp [listBytes]
      omega
    · rw [hcur, hlog]
      refine ChunkOK_append size [] [] (ChunkOK_nil size)
        ([] ++ [(freshWrap chain node).1])
        ⟨node, chain, node.bytes, (freshWrap chain node).2, .atomicWhole⟩ ?_ (by simp) ?_
      · have := freshWrap_bytes chain node
        simp [listBytes_nil, listBytes]
        omega
      · intro hsz
        have hfw := freshWrap_bytes chain node
        by_cases hle : listBytes ([] ++ [(freshWrap chain node).1]) ≤
            size + (freshWrap chain node).2
        · exact Or.inl hle
        · refine Or.inr (Or.inr ⟨rfl, ?_⟩)
          simp only [List.nil_append] at hle
          simp [listBytes] at hle
          show size < node.bytes
          omega
  · -- node appended directly
    dsimp only
    refine ⟨?_, ?_, h3, h4, h5, h6⟩
    · rw [listBytes_append, hcur, hcnt, listBytes_nil]
      simp [listBytes]
    · rw [hcur, hlog]
      refine ChunkOK_append size [] [] (ChunkOK_nil size)
        ([] ++ [node])
        ⟨node, [], node.bytes, 0, .atomicWhole⟩ ?_ (by simp) ?_
      · simp [listBytes_nil, listBytes]
      · intro hsz
        by_cases hle : listBytes ([] ++ [node]) ≤ size + 0
        · exact Or.inl hle
        · refine Or.inr (Or.inr ⟨rfl, ?_⟩)
          simp only [List.nil_append] at hle
          simp [listBytes] at hle
          show size < node.bytes
          omega

/-- The append half of the normal flow (after the flush decision): keeps
the invariant, given that the chunk is empty or the node still fits. -/
theorem StateInv_appendCore (size : Nat) (node : Node) (chain : List Node)
    (st1 st' : ChunkState) (hInv1 : StateInv size st1)
    (hok : st1.currentChunk = [] ∨ size = 0 ∨
      st1.currentChunkSize + node.bytes ≤ size)
    (h : (if chain.length > 0 then
        match appendViaChain chain node st1.currentChunk with
        | none => none
        | some r =>
          some { st1 with
            currentChunk := r.1,
            currentChunkSize := st1.currentChunkSize + r.2 + node.bytes,
            curLog := st1.curLog ++ [⟨node, chain, node.bytes, r.2, .normal⟩] }
      else
        some { st1 with
          currentChunk := st1.currentChunk ++ [node],
          currentChunkSize := st1.currentChunkSize + node.bytes,
          curLog := st1.curLog ++ [⟨node, [], node.bytes, 0, .normal⟩] }) =
      some st') :
    StateInv size st' := by
  obtain ⟨h1, h2, h3, h4, h5, h6⟩ := hInv1
  split at h
  · cases happ : appendViaChain chain node st1.currentChunk with
    | none => rw [happ] at h; exact absurd h (by simp)
    | some r =>
      rw [happ] at h
      simp only [Option.some.injEq] at h
      subst h
      have hB := appendViaChain_bytes chain node st1.currentChunk r happ
      have hN := appendViaChain_ne_nil chain node st1.currentChunk r happ
      refine ⟨by rw [hB, h1], ?_, h3, h4, h5, h6⟩
      refine ChunkOK_append size st1.currentChunk st1.curLog h2 r.1
        ⟨node, chain, node.bytes, r.2, .normal⟩
        (by show listBytes r.1 =
              listBytes st1.currentChunk + (node.bytes + r.2)
            omega)
        hN ?_
      intro hsz
      rcases hok with hemp | hsz0 | hfit
      · have hlog0 : st1.curLog = [] := h2.2.1.1 hemp
        rw [hemp, listBytes_nil] at hB
        by_cases hle : listBytes r.1 ≤ size + r.2
        · exact Or.inl hle
        · refine Or.inr (Or.inr ⟨hlog0, ?_⟩)
          show size < node.bytes
          omega
      · exact absurd hsz0 hsz
      · rw [h1] at hfit
        refine Or.inl ?_
        show listBytes r.1 ≤ size + r.2
        omega
  · simp only [Option.some.injEq] at h
    subst h
    have hB : listBytes (st1.currentChunk ++ [node]) =
        listBytes st1.currentChunk + node.bytes := by
      rw [listBytes_append]; simp [listBytes]
    refine ⟨by rw [hB, h1], ?_, h3, h4, h5, h6⟩
    refine ChunkOK_append size st1.currentChunk st1.curLog h2
      (st1.currentChunk ++ [node])
      ⟨node, [], node.bytes, 0, .normal⟩
      (by show listBytes (st1.currentChunk ++ [node]) =
            listBytes st1.currentChunk + (node.bytes + 0)
          omega)
      (by simp) ?_
    intro hsz
    rcases hok with hemp | hsz0 | hfit
    · have hlog0 : st1.curLog = [] := h2.2.1.1 hemp
      have hnb : listBytes (st1.currentChunk ++ [node]) = node.bytes := by
        rw [hemp]
        simp [listBytes]
      by_cases hle : listBytes (st1.currentChunk ++ [node]) ≤ size + 0
      · exact Or.inl hle
      · refine Or.inr (Or.inr ⟨hlog0, ?_⟩)
        show size < node.bytes
        omega
    · exact absurd hsz0 hsz
    · rw [h1] at hfit
      refine Or.inl ?_
      show listBytes (st1.currentChunk ++ [node]) ≤ size + 0
      omega

theorem StateInv_normalFlow (size : Nat) (node : Node) (chain : List Node)
    (st st' : ChunkState) (hInv : StateInv size st)
    (h : normalFlow size node node.bytes chain st = some st') :
    StateInv size st' := by
  unfold normalFlow at h
  dsimp only at h
  by_cases hflush : size ≠ 0 ∧ st.currentChunkSize + node.bytes > size ∧
      st.currentChunk.length > 0
  · rw [if_pos hflush] at h
    exact StateInv_appendCore size node chain (startNewChunk st) st'
      (StateInv_startNewChunk size st hInv)
      (Or.inl (startNewChunk_currentChunk st)) h
  · rw [if_neg hflush] at h
    refine StateInv_appendCore size node chain st st' hInv ?_ h
    by_cases hemp : st.currentChunk = []
    · exact Or.inl hemp
    · right
      have hlen : st.currentChunk.length > 0 := by
        cases hc : st.currentChunk with
        | nil => exact absurd hc hemp
        | cons a l => simp [hc]
      by_cases hsz : size = 0
      · exact Or.inl hsz
      · right
        by_cases hle : st.currentChunkSize + node.bytes ≤ size
        · exact hle
        · exact absurd ⟨hsz, by omega, hlen⟩ hflush

/-- The invariant is preserved by `addNode`/`addNodes`. -/
theorem StateInv_master (size : Nat) :
    ∀ k : Nat,
      (∀ node : Node, sizeOf node < k → ∀ chain st st', StateInv size st →
        addNode size node chain st = some st' → StateInv size st') ∧
      (∀ ns : List Node, sizeOf ns < k → ∀ chain st st', StateInv size st →
        addNodes size ns chain st = some st' → StateInv size st') := by
  intro k
  induction k with
  | zero => exact ⟨fun node h => absurd h (by omega),
      fun ns h => absurd h (by omega)⟩
  | succ k IH =>
    constructor
    · intro node hk chain st st' hInv h
      cases node with
      | atrule nm pp opt =>
        cases opt with
        | some kids =>
          rw [show addNode size (.atrule nm pp (some kids)) chain st =
            (let nodeSize := (Node.atrule nm pp (some kids)).bytes
             let st1 := noteVisit size (.atrule nm pp (some kids)) nodeSize st
             if kids.length > 0 ∧ size ≠ 0 ∧
                 st1.currentChunkSize + nodeSize > size then
               if nm ∈ nonSplittableAtRules then
                 some (atomicPlace (.atrule nm pp (some kids)) nodeSize chain st1)
               else if ¬ hasActualContent kids then
                 some (noContentPlace (.atrule nm pp (some kids)) nodeSize chain st1)
               else
                 addNodes size kids (chain ++ [.atrule nm pp (some kids)]) st1
             else normalFlow size (.atrule nm pp (some kids)) nodeSize chain st1)
            from rfl] at h
          simp only [] at h
          have hInv1 := StateInv_noteVisit size (.atrule nm pp (some kids))
            (Node.atrule nm pp (some kids)).bytes st hInv
          split at h
          · split at h
            · simp only [Option.some.injEq] at h
              subst h
              exact StateInv_atomicPlace size _ chain _ hInv1
            · split at h
              · simp only [Option.some.injEq] at h
                subst h
                exact StateInv_noContentPlace size _ chain _ hInv1
              · have hkids : sizeOf kids < k := by
                  have : sizeOf kids < sizeOf (Node.atrule nm pp (some kids)) := by
                    simp
                    omega
                  omega
                exact (IH).2 kids hkids _ _ _ hInv1 h
          · exact StateInv_normalFlow size _ chain _ st' hInv1 h
        | none =>
          rw [addNode_eq_normalFlow size _ chain st
            (by intro a b c hcon; exact absurd hcon (by simp))] at h
          exact StateInv_normalFlow size _ chain _ st'
            (StateInv_noteVisit size _ _ st hInv) h
      | rule sel kids =>
        rw [addNode_eq_normalFlow size _ chain st
          (by intro a b c hcon; exact absurd hcon (by simp))] at h
        exact StateInv_normalFlow size _ chain _ st'
          (StateInv_noteVisit size _ _ st hInv) h
      | decl p v =>
        rw [addNode_eq_normalFlow size _ chain st
          (by intro a b c hcon; exact absurd hcon (by simp))] at h
        exact StateInv_normalFlow size _ chain _ st'
          (StateInv_noteVisit size _ _ st hInv) h
      | comment t =>
        rw [addNode_eq_normalFlow size _ chain st
          (by intro a b c hcon; exact absurd hcon (by simp))] at h
        exact StateInv_normalFlow size _ chain _ st'
          (StateInv_noteVisit size _ _ st hInv) h
    · intro ns hk chain st st' hInv h
      cases ns with
      | nil =>
        rw [show addNodes size [] chain st = some st from rfl] at h
        simp only [Option.some.injEq] at h
        subst h
        exact hInv
      | cons n rest =>
        rw [show addNodes size (n :: rest) chain st =
          (match addNode size n chain st with
           | none => none
           | some st1 => addNodes size rest chain st1) from rfl] at h
        cases hstep : addNode size n chain st with
        | none => rw [hstep] at h; exact absurd h (by simp)
        | some st1 =>
          rw [hstep] at h
          simp only [] at h
          have hn : sizeOf n < k := by
            have : sizeOf n < sizeOf (n :: rest) := by
              simp only [List.cons.sizeOf_spec]; omega
            omega
          have hrest : sizeOf rest < k := by
            have : sizeOf rest < sizeOf (n :: rest) := by
              simp only [List.cons.sizeOf_spec]; omega
            omega
          exact (IH).2 rest hrest chain st1 st'
            ((IH).1 n hn chain st st1 hInv hstep) h

/-- The invariant, read off the final result. -/
theorem runOnce_StateInv (size : Nat) (ns : List Node) (res : RunResult)
    (h : runOnce size ns = some res) :
    res.chunkLogs.length = res.chunks.length ∧
    (∀ c ∈ res.chunks, c ≠ []) ∧
    (∀ pr ∈ res.chunks.zip res.chunkLogs, ChunkOK size pr.1 pr.2) ∧
    res.warnings = oversizeWarnings size res.visitLog := by
  unfold runOnce at h
  cases hA : addNodes size ns [] initState with
  | none => rw [hA] at h; exact absurd h (by simp)
  | some st =>
    rw [hA] at h
    simp only [Option.some.injEq] at h
    subst h
    have hInv : StateInv size (startNewChunk st) :=
      StateInv_startNewChunk size st
        ((StateInv_master size (sizeOf ns + 1)).2 ns (by omega) [] initState st
          (StateInv_initState size) hA)
    exact ⟨hInv.2.2.1, hInv.2.2.2.1, hInv.2.2.2.2.1, hInv.2.2.2.2.2⟩

/-! ## Claim C2 — budget respect -/

/-- Claim C2 as stated is false: a conditional at-rule without "actual
content" (here: a media query holding only a comment) is appended with no
overflow check, so a chunk can exceed the limit while holding two nodes,
neither of which alone exceeds the limit, and with no reconstructed shells
involved. -/
theorem runOnce_budget_counterexample :
    (runOnce 40 [wRule1, Node.atrule "media" "x"
        (some [Node.comment "aaaaaaaaaaaaaaaaaaaaaaaaaa"])]).map
      (fun r => r.chunks) =
      some [[wRule1, Node.atrule "media" "x"
        (some [Node.comment "aaaaaaaaaaaaaaaaaaaaaaaaaa"])]] ∧
    wRule1.bytes = 14 ∧
    (Node.atrule "media" "x"
      (some [Node.comment "aaaaaaaaaaaaaaaaaaaaaaaaaa"])).bytes = 40 ∧
    strBytes (Node.listToStr [wRule1, Node.atrule "media" "x"
      (some [Node.comment "aaaaaaaaaaaaaaaaaaaaaaaaaa"])]) = 54 ∧
    40 < 54 := by
  exact ⟨rfl, rfl, rfl, rfl, by omega⟩

/-- C2 (amended): for every positive limit, every produced chunk's
serialized size is at most the limit plus the shells created by its last
append, unless its last append was a contentless conditional at-rule (the
unchecked branch), or the chunk consists of a single appended unit whose
own size already exceeds the limit. -/
theorem runOnce_budget_respected (size : Nat) (hpos : 0 < size)
    (ns : List Node) (res : RunResult) (h : runOnce size ns = some res) :
    ∀ pr ∈ res.chunks.zip res.chunkLogs, ∀ last, pr.2.getLast? = some last →
      strBytes (Node.listToStr pr.1) ≤ size + last.shellBytes ∨
      last.tag = .noContent ∨
      (pr.2.length = 1 ∧ size < last.nodeBytes) := by
  intro pr hpr last hlast
  have hOK := (runOnce_StateInv size ns res h).2.2.1 pr hpr
  have := hOK.2.2 (by omega) last hlast
  rwa [← strBytes_listToStr pr.1] at this

/-- Witness for the amended C2 at a concrete one-chunk run. -/
theorem runOnce_budget_respected_witness :
    (runOnce 100 [wRule1]).map (fun r => r.chunks.zip r.chunkLogs) =
      some [([wRule1], [⟨wRule1, [], 14, 0, .normal⟩])] ∧
    (strBytes (Node.listToStr [wRule1]) ≤
        100 + (⟨wRule1, [], 14, 0, .normal⟩ : AppendLog).shellBytes ∨
      (⟨wRule1, [], 14, 0, .normal⟩ : AppendLog).tag = .noContent ∨
      ([(⟨wRule1, [], 14, 0, .normal⟩ : AppendLog)].length = 1 ∧
        100 < (⟨wRule1, [], 14, 0, .normal⟩ : AppendLog).nodeBytes)) := by
  constructor
  · rfl
  · have h1 : (runOnce 100 [wRule1]).isSome = true := rfl
    have hz : ((runOnce 100 [wRule1]).get h1).chunks.zip
        ((runOnce 100 [wRule1]).get h1).chunkLogs =
        [([wRule1], [⟨wRule1, [], 14, 0, .normal⟩])] := rfl
    have hmem : (([wRule1], [(⟨wRule1, [], 14, 0, .normal⟩ : AppendLog)]) :
        List Node × List AppendLog) ∈
        ((runOnce 100 [wRule1]).get h1).chunks.zip
          ((runOnce 100 [wRule1]).get h1).chunkLogs := by
      rw [hz]
      exact List.mem_singleton.mpr rfl
    exact runOnce_budget_respected 100 (by omega) [wRule1] _
      (Option.some_get h1).symm _ hmem _ rfl

/-! ## Claim C7 — oversize warnings -/

/-- Claim C7 as stated is false at limit 0: the visited rule's size (14)
exceeds the limit (0), yet no warning is emitted, because the source guards
the warning with `size &&`, which is falsy at 0. -/
theorem runOnce_warnings_counterexample :
    (runOnce 0 [wRule1]).map (fun r => r.warnings) = some [] ∧
    (runOnce 0 [wRule1]).map (fun r => r.visitLog) = some [(wRule1, 14)] ∧
    14 > 0 := by
  exact ⟨rfl, rfl, by omega⟩

/-- C7 (amended): for every positive limit, the warnings are exactly one
per visit whose estimated size exceeds the limit, in visit order, each
being the message built by `warnMsg` (selector text for rules, `@name` for
at-rules, with the computed size, the limit, and "cannot be split"). -/
theorem runOnce_warnings_exact (size : Nat) (hpos : 0 < size)
    (ns : List Node) (res : RunResult) (h : runOnce size ns = some res) :
    res.warnings = (res.visitLog.filter (fun v => decide (v.2 > size))).map
      (fun v => warnMsg v.1 v.2 size) := by
  have hw := (runOnce_StateInv size ns res h).2.2.2
  rw [hw]
  unfold oversizeWarnings
  congr 1
  apply List.filter_congr
  intro v _
  have : size ≠ 0 := by omega
  simp [this]

/-- Witness for the amended C7: one oversize rule yields exactly its
warning. -/
theorem runOnce_warnings_exact_witness :
    (runOnce 5 [wRule1]).map (fun r => r.warnings) =
      (runOnce 5 [wRule1]).map
        (fun r => (r.visitLog.filter (fun v => decide (v.2 > 5))).map
          (fun v => warnMsg v.1 v.2 5)) := by
  have h1 : (runOnce 5 [wRule1]).isSome = true := rfl
  have h2 := runOnce_warnings_exact 5 (by omega) [wRule1] _
    (Option.some_get h1).symm
  rw [show runOnce 5 [wRule1] = some ((runOnce 5 [wRule1]).get h1) from
    (Option.some_get h1).symm]
  simp only [Option.map_some']
  exact congrArg some h2

/-! ## Claim C10 — no empty chunks; empty input -/

/-- C10: every produced chunk holds at least one node, and the empty input
yields zero chunks and zero warnings. -/
theorem runOnce_no_empty_chunk (size : Nat) (ns : List Node)
    (res : RunResult) (h : runOnce size ns = some res) (c : List Node)
    (hc : c ∈ res.chunks) :
    c ≠ [] ∧ runOnce size [] = some ⟨[], [], [], [], []⟩ := by
  refine ⟨(runOnce_StateInv size ns res h).2.1 c hc, ?_⟩
  rfl

/-- Witness for C10. -/
theorem runOnce_no_empty_chunk_witness :
    [wRule1] ≠ [] ∧ runOnce 100 [] = some ⟨[], [], [], [], []⟩ := by
  have h1 : (runOnce 100 [wRule1]).isSome = true := rfl
  have hz : ((runOnce 100 [wRule1]).get h1).chunks = [[wRule1]] := rfl
  have hmem : [wRule1] ∈ ((runOnce 100 [wRule1]).get h1).chunks := by
    rw [hz]
    exact List.mem_singleton.mpr rfl
  exact runOnce_no_empty_chunk 100 [wRule1] _ (Option.some_get h1).symm
    [wRule1] hmem

/-! ## Claim C6 — nesting reconstruction -/

/-- The contentless conditional at-rule used by the C6 counterexample. -/
def cm6B : Node := .atrule "media" "b" (some [.comment "cccccccccc"])

/-- A media query wrapping `cm6B`. -/
def cm6A : Node := .atrule "media" "a" (some [cm6B])

/-- Claim C6 as stated is false: `cm6B` is placed while the parent chain
`[cm6A]` is open (the recursion into `cm6A`'s children), but the "no actual
content" branch appends it at the chunk root, ignoring the chain — the
produced chunk holds `cm6B` bare, not nested under a `@media a` shell. -/
theorem chunk_builder_nests_counterexample :
    (runOnce 10 [cm6A]).map (fun r => r.chunks) = some [[cm6B]] ∧
    ¬ chunkHasNested [cm6A] cm6B [cm6B] := by
  refine ⟨rfl, ?_⟩
  rintro ⟨kids, hmem, _⟩
  simp [cm6A, cm6B, Node.nameOf, Node.paramsOf] at hmem

/-- C6 (amended): both chain-rebuilding placement paths nest the placed
node under at-rules matching, in order, every element of the open chain by
name and params: the normal flow's `appendViaChain` (with shell reuse) and
the non-splittable branch's fresh wrapping.  (The "no actual content"
branch instead drops the chain; see the counterexample.) -/
theorem chunk_builder_nests :
    (∀ (chain : List Node) (node : Node) (target : List Node)
       (r : List Node × Nat), appendViaChain chain node target = some r →
       chunkHasNested chain node r.1) ∧
    (∀ (chain : List Node) (node : Node) (target : List Node),
       chunkHasNested chain node (target ++ [(freshWrap chain node).1])) := by
  constructor
  · intro chain
    induction chain with
    | nil =>
      intro node target r h
      simp only [appendViaChain, Option.some.injEq] at h
      subst h
      show node ∈ target ++ [node]
      simp
    | cons p rest ih =>
      intro node target r h
      rw [appendViaChain] at h
      cases hL : target.getLast? with
      | none =>
        rw [hL] at h
        dsimp only at h
        rcases Option.map_eq_some'.1 h with ⟨r0, h0, hr⟩
        subst hr
        exact ⟨r0.1, by simp, ih node [] r0 h0⟩
      | some last =>
        rw [hL] at h
        cases last with
        | atrule n2 p2 optKids =>
          dsimp only at h
          by_cases hmatch : n2 = p.nameOf ∧ p2 = p.paramsOf
          · rw [if_pos hmatch] at h
            cases optKids with
            | none =>
              cases rest with
              | cons q qs => exact absurd h (by simp)
              | nil =>
                simp only [Option.some.injEq] at h
                subst h
                refine ⟨[node], ?_, by show node ∈ [node]; simp⟩
                rw [hmatch.1, hmatch.2]
                simp
            | some kids =>
              rcases Option.map_eq_some'.1 h with ⟨r0, h0, hr⟩
              subst hr
              refine ⟨r0.1, ?_, ih node kids r0 h0⟩
              rw [hmatch.1, hmatch.2]
              simp
          · rw [if_neg hmatch] at h
            rcases Option.map_eq_some'.1 h with ⟨r0, h0, hr⟩
            subst hr
            exact ⟨r0.1, by simp, ih node [] r0 h0⟩
        | rule sel kids =>
          dsimp only at h
          rcases Option.map_eq_some'.1 h with ⟨r0, h0, hr⟩
          subst hr
          exact ⟨r0.1, by simp, ih node [] r0 h0⟩
        | decl a b =>
          dsimp only at h
          rcases Option.map_eq_some'.1 h with ⟨r0, h0, hr⟩
          subst hr
          exact ⟨r0.1, by simp, ih node [] r0 h0⟩
        | comment t =>
          dsimp only at h
          rcases Option.map_eq_some'.1 h with ⟨r0, h0, hr⟩
          subst hr
          exact ⟨r0.1, by simp, ih node [] r0 h0⟩
  · intro chain
    induction chain with
    | nil =>
      intro node target
      show node ∈ target ++ [(freshWrap [] node).1]
      simp [freshWrap]
    | cons p rest ih =>
      intro node target
      refine ⟨[(freshWrap rest node).1], by simp [freshWrap], ?_⟩
      have := ih node []
      simpa using this

/-- Witness for the amended C6: a rule placed under a one-element chain is
nested under a matching `@media` shell by both paths. -/
theorem chunk_builder_nests_witness :
    appendViaChain [wMedia] wRule1 [] =
      some ([.atrule "media" "x" (some [wRule1])], 10) ∧
    chunkHasNested [wMedia] wRule1 [.atrule "media" "x" (some [wRule1])] ∧
    chunkHasNested [wMedia] wRule1 ([] ++ [(freshWrap [wMedia] wRule1).1]) := by
  refine ⟨rfl, ?_, ?_⟩
  · exact (chunk_builder_nests).1 [wMedia] wRule1 []
      ([.atrule "media" "x" (some [wRule1])], 10) rfl
  · exact (chunk_builder_nests).2 [wMedia] wRule1 []

/-! ## Claim C9 — monotonicity of the chunk count -/

/-- One 10-byte splittable at-rule unit (`@a b{.c{}}`). -/
def mUnit : Node := .atrule "a" "b" (some [.rule ".c" []])

/-- Seven identical media units. -/
def sevenUnits : List Node :=
  [mUnit, mUnit, mUnit, mUnit, mUnit, mUnit, mUnit]

set_option maxRecDepth 10000 in
/-- Claim C9 as stated is false even for positive limits: on seven identical
small splittable at-rule units, limit 28 yields 2 chunks while the *larger*
limit 30 yields 3 — at the smaller limit the split-and-reuse path packs
four units per chunk (children are merged under a shared shell, and newly
created shells are not counted by the overflow check), while at 30 whole
units are packed three per chunk. -/
theorem runOnce_monotone_counterexample :
    (runOnce 28 sevenUnits).map (fun r => r.chunks.length) = some 2 ∧
    (runOnce 30 sevenUnits).map (fun r => r.chunks.length) = some 3 ∧
    28 < 30 := by
  refine ⟨?_, ?_, by omega⟩
  · simp only [sevenUnits, runOnce, addNodes, addNode, normalFlow, noteVisit,
      startNewChunk, appendViaChain, freshWrap, noContentPlace, atomicPlace,
      initState, mUnit, Node.bytes, Node.toStr, Node.listToStr, strBytes,
      listBytes, hasActualContent, nonSplittableAtRules, shellOf, Node.nameOf,
      Node.paramsOf, warnMsg, warnIdent, Node.firstSelector]
    decide
  · simp only [sevenUnits, runOnce, addNodes, addNode, normalFlow, noteVisit,
      startNewChunk, appendViaChain, freshWrap, noContentPlace, atomicPlace,
      initState, mUnit, Node.bytes, Node.toStr, Node.listToStr, strBytes,
      listBytes, hasActualContent, nonSplittableAtRules, shellOf, Node.nameOf,
      Node.paramsOf, warnMsg, warnIdent, Node.firstSelector]
    decide

/-- Top-level nodes that never trigger the split branch: everything except
an at-rule with a non-empty body. -/
def FlatNode : Node → Prop
  | .atrule _ _ (some kids) => kids = []
  | _ => True

theorem listBytes_eq_zero (l : List Node) : listBytes l = 0 ↔ l = [] := by
  cases l with
  | nil => simp [listBytes]
  | cons n rest =>
    have := bytes_pos n
    rw [listBytes_cons]
    constructor
    · intro h; omega
    · intro h; exact absurd h (by simp)

/-- On a flat node the whole of `addNode` is the normal flow. -/
theorem addNode_flat (size : Nat) (n : Node) (hf : FlatNode n)
    (st : ChunkState) :
    addNode size n [] st =
      normalFlow size n n.bytes [] (noteVisit size n n.bytes st) := by
  cases n with
  | rule sel kids => rfl
  | decl p v => rfl
  | comment t => rfl
  | atrule nm pp opt =>
    cases opt with
    | none => rfl
    | some kids =>
      have hk : kids = [] := hf
      subst hk
      rfl

theorem startNewChunk_finalChunks_pos (st : ChunkState)
    (h : st.currentChunk.length > 0) :
    (startNewChunk st).finalChunks = st.finalChunks ++ [st.currentChunk] := by
  unfold startNewChunk
  rw [if_pos h]

/-- The two possible outcomes of one flat step: plain append, or flush then
append. -/
theorem addNode_flat_cases (size : Nat) (n : Node) (hf : FlatNode n)
    (st st' : ChunkState) (h : addNode size n [] st = some st') :
    (¬ (size ≠ 0 ∧ st.currentChunkSize + n.bytes > size ∧
        st.currentChunk.length > 0) ∧
      st'.currentChunk = st.currentChunk ++ [n] ∧
      st'.currentChunkSize = st.currentChunkSize + n.bytes ∧
      st'.finalChunks = st.finalChunks) ∨
    ((size ≠ 0 ∧ st.currentChunkSize + n.bytes > size ∧
        st.currentChunk.length > 0) ∧
      st'.currentChunk = [n] ∧
      st'.currentChunkSize = n.bytes ∧
      st'.finalChunks = st.finalChunks ++ [st.currentChunk]) := by
  rw [addNode_flat size n hf st] at h
  by_cases hcond : size ≠ 0 ∧ st.currentChunkSize + n.bytes > size ∧
      st.currentChunk.length > 0
  · right
    refine ⟨hcond, ?_⟩
    have hcond0 : size ≠ 0 ∧
        (noteVisit size n n.bytes st).currentChunkSize + n.bytes > size ∧
        (noteVisit size n n.bytes st).currentChunk.length > 0 := by
      rw [noteVisit_currentChunkSize, noteVisit_currentChunk]
      exact hcond
    rw [normalFlow_nil_flush size n n.bytes _ hcond0] at h
    simp only [Option.some.injEq] at h
    subst h
    have hlen0 : (noteVisit size n n.bytes st).currentChunk.length > 0 :=
      hcond0.2.2
    have hfinal := startNewChunk_finalChunks_pos _ hlen0
    have hcur := startNewChunk_currentChunk (noteVisit size n n.bytes st)
    have hsize : (startNewChunk (noteVisit size n n.bytes st)).currentChunkSize
        = 0 := by
      unfold startNewChunk
      split <;> rfl
    refine ⟨?_, ?_, ?_⟩
    · show (startNewChunk (noteVisit size n n.bytes st)).currentChunk ++ [n] = [n]
      rw [hcur]
      simp
    · show (startNewChunk (noteVisit size n n.bytes st)).currentChunkSize +
        n.bytes = n.bytes
      rw [hsize]
      omega
    · show (startNewChunk (noteVisit size n n.bytes st)).finalChunks =
        st.finalChunks ++ [st.currentChunk]
      rw [hfinal, noteVisit_finalChunks, noteVisit_currentChunk]
  · left
    refine ⟨hcond, ?_⟩
    have hcond0 : ¬ (size ≠ 0 ∧
        (noteVisit size n n.bytes st).currentChunkSize + n.bytes > size ∧
        (noteVisit size n n.bytes st).currentChunk.length > 0) := by
      rw [noteVisit_currentChunkSize, noteVisit_currentChunk]
      exact hcond
    rw [normalFlow_nil_noflush size n n.bytes _ hcond0] at h
    simp only [Option.some.injEq] at h
    subst h
    exact ⟨by rw [noteVisit_currentChunk],
      by rw [noteVisit_currentChunkSize],
      by rw [noteVisit_finalChunks]⟩

theorem listBytes_singleton (n : Node) : listBytes [n] = n.bytes := by
  simp [listBytes]

/-- Simulation relation between the run at the smaller limit (`sta`) and
the run at the larger limit (`stb`): exact counters, and either the small
run has already emitted strictly more chunks, or both have emitted equally
many and the small run's current chunk is at least as full. -/
def NFrel (sta stb : ChunkState) : Prop :=
  sta.currentChunkSize = listBytes sta.currentChunk ∧
  stb.currentChunkSize = listBytes stb.currentChunk ∧
  (stb.finalChunks.length < sta.finalChunks.length ∨
   (sta.finalChunks.length = stb.finalChunks.length ∧
    stb.currentChunkSize ≤ sta.currentChunkSize))

theorem NFrel_step (a b : Nat) (ha : 0 < a) (hab : a ≤ b) (n : Node)
    (hf : FlatNode n) (sta stb sta' stb' : ChunkState) (hR : NFrel sta stb)
    (h1 : addNode a n [] sta = some sta')
    (h2 : addNode b n [] stb = some stb') :
    NFrel sta' stb' := by
  obtain ⟨hWa, hWb, hK⟩ := hR
  rcases addNode_flat_cases a n hf sta sta' h1 with
    ⟨hca, hc1, hc2, hc3⟩ | ⟨hca, hc1, hc2, hc3⟩ <;>
    rcases addNode_flat_cases b n hf stb stb' h2 with
      ⟨hcb, hd1, hd2, hd3⟩ | ⟨hcb, hd1, hd2, hd3⟩
  · -- neither flushes
    refine ⟨by rw [hc2, hc1, listBytes_append, listBytes_singleton, hWa],
      by rw [hd2, hd1, listBytes_append, listBytes_singleton, hWb], ?_⟩
    rw [hc3, hd3, hc2, hd2]
    rcases hK with hlt | ⟨heq, hle⟩
    · exact Or.inl hlt
    · exact Or.inr ⟨heq, by omega⟩
  · -- only the large limit flushes: impossible unless the small run was
    -- already ahead
    refine ⟨by rw [hc2, hc1, listBytes_append, listBytes_singleton, hWa],
      by rw [hd2, hd1, listBytes_singleton], ?_⟩
    rw [hc3, hd3, hc2, hd2]
    rcases hK with hlt | ⟨heq, hle⟩
    · simp only [List.length_append, List.length_cons, List.length_nil]
      by_cases hstrict : stb.finalChunks.length + 1 < sta.finalChunks.length
      · exact Or.inl (by omega)
      · refine Or.inr ⟨by omega, by omega⟩
    · exfalso
      apply hca
      have hbne : stb.currentChunk ≠ [] := by
        intro hcon
        rw [hcon] at hcb
        simp at hcb
      have hbpos : 0 < stb.currentChunkSize := by
        rw [hWb]
        rcases Nat.eq_zero_or_pos (listBytes stb.currentChunk) with h0 | h0
        · exact absurd ((listBytes_eq_zero _).1 h0) hbne
        · exact h0
      have hapos : 0 < sta.currentChunkSize := by omega
      have hane : sta.currentChunk ≠ [] := by
        intro hcon
        rw [hWa, hcon, listBytes_nil] at hapos
        omega
      refine ⟨by omega, by omega, ?_⟩
      cases hc : sta.currentChunk with
      | nil => exact absurd hc hane
      | cons x l => simp [hc]
  · -- only the small limit flushes
    refine ⟨by rw [hc2, hc1, listBytes_singleton],
      by rw [hd2, hd1, listBytes_append, listBytes_singleton, hWb], ?_⟩
    rw [hc3, hd3]
    rcases hK with hlt | ⟨heq, hle⟩
    · exact Or.inl (by simp; omega)
    · exact Or.inl (by simp; omega)
  · -- both flush
    refine ⟨by rw [hc2, hc1, listBytes_singleton],
      by rw [hd2, hd1, listBytes_singleton], ?_⟩
    rw [hc3, hd3, hc2, hd2]
    rcases hK with hlt | ⟨heq, hle⟩
    · exact Or.inl (by simp; omega)
    · exact Or.inr ⟨by simp; omega, by omega⟩

theorem NFrel_steps (a b : Nat) (ha : 0 < a) (hab : a ≤ b) :
    ∀ (ns : List Node), (∀ n ∈ ns, FlatNode n) →
    ∀ sta stb sta' stb', NFrel sta stb →
    addNodes a ns [] sta = some sta' →
    addNodes b ns [] stb = some stb' →
    NFrel sta' stb' := by
  intro ns
  induction ns with
  | nil =>
    intro _ sta stb sta' stb' hR h1 h2
    rw [show addNodes a [] [] sta = some sta from rfl] at h1
    rw [show addNodes b [] [] stb = some stb from rfl] at h2
    simp only [Option.some.injEq] at h1 h2
    subst h1 h2
    exact hR
  | cons n rest ih =>
    intro hf sta stb sta' stb' hR h1 h2
    rw [show addNodes a (n :: rest) [] sta =
      (match addNode a n [] sta with
       | none => none
       | some st1 => addNodes a rest [] st1) from rfl] at h1
    rw [show addNodes b (n :: rest) [] stb =
      (match addNode b n [] stb with
       | none => none
       | some st1 => addNodes b rest [] st1) from rfl] at h2
    cases hs1 : addNode a n [] sta with
    | none => rw [hs1] at h1; exact absurd h1 (by simp)
    | some sta1 =>
      cases hs2 : addNode b n [] stb with
      | none => rw [hs2] at h2; exact absurd h2 (by simp)
      | some stb1 =>
        rw [hs1] at h1
        rw [hs2] at h2
        simp only [] at h1 h2
        exact ih (fun m hm => hf m (by simp [hm])) sta1 stb1 sta' stb'
          (NFrel_step a b ha hab n (hf n (by simp)) sta stb sta1 stb1 hR
            hs1 hs2) h1 h2

theorem startNewChunk_count (st : ChunkState) :
    (startNewChunk st).finalChunks.length =
      st.finalChunks.length +
        (if st.currentChunk.length > 0 then 1 else 0) := by
  unfold startNewChunk
  split
  · simp
  · simp

/-- C9 (amended): for a *flat* input (no top-level at-rule with a non-empty
body, so the split/reconstruction machinery is never involved) and positive
limits `a < b`, the run at the smaller limit produces at least as many
chunks: plain next-fit packing is monotone in the budget.  (With nested
at-rules the claim is false — see the counterexample.) -/
theorem runOnce_monotone_flat (a b : Nat) (ha : 0 < a) (hab : a < b)
    (ns : List Node) (hf : ∀ n ∈ ns, FlatNode n) (resa resb : RunResult)
    (hra : runOnce a ns = some resa) (hrb : runOnce b ns = some resb) :
    resb.chunks.length ≤ resa.chunks.length := by
  unfold runOnce at hra hrb
  cases hA : addNodes a ns [] initState with
  | none => rw [hA] at hra; exact absurd hra (by simp)
  | some sta =>
    cases hB : addNodes b ns [] initState with
    | none => rw [hB] at hrb; exact absurd hrb (by simp)
    | some stb =>
      rw [hA] at hra
      rw [hB] at hrb
      simp only [Option.some.injEq] at hra hrb
      subst hra hrb
      have hR0 : NFrel initState initState := by
        refine ⟨by simp [initState, listBytes], by simp [initState, listBytes],
          Or.inr ⟨rfl, le_refl _⟩⟩
      obtain ⟨hWa, hWb, hK⟩ := NFrel_steps a b ha (le_of_lt hab) ns hf
        initState initState sta stb hR0 hA hB
      show (startNewChunk stb).finalChunks.length ≤
        (startNewChunk sta).finalChunks.length
      rw [startNewChunk_count, startNewChunk_count]
      rcases hK with hlt | ⟨heq, hle⟩
      · split <;> split <;> omega
      · by_cases hb0 : stb.currentChunk.length > 0
        · have hbne : stb.currentChunk ≠ [] := by
            intro hcon
            rw [hcon] at hb0
            simp at hb0
          have hbpos : 0 < stb.currentChunkSize := by
            rw [hWb]
            rcases Nat.eq_zero_or_pos (listBytes stb.currentChunk) with h0 | h0
            · exact absurd ((listBytes_eq_zero _).1 h0) hbne
            · exact h0
          have hapos : 0 < sta.currentChunkSize := by omega
          have ha0 : sta.currentChunk.length > 0 := by
            cases hc : sta.currentChunk with
            | nil => rw [hWa, hc, listBytes_nil] at hapos; omega
            | cons x l => simp [hc]
          rw [if_pos hb0, if_pos ha0]
          omega
        · rw [if_neg hb0]
          split <;> omega

/-- Three plain rules: a flat input. -/
def flat3 : List Node := [wRule1, wRule1, wRule1]

/-- Witness for the amended C9: three 14-byte rules give 3 chunks at limit
15 and 2 chunks at limit 30. -/
theorem runOnce_monotone_flat_witness :
    (runOnce 30 flat3).map (fun r => r.chunks.length) = some 2 ∧
    (runOnce 15 flat3).map (fun r => r.chunks.length) = some 3 ∧
    2 ≤ 3 := by
  refine ⟨rfl, rfl, ?_⟩
  have ha1 : (runOnce 15 flat3).isSome = true := rfl
  have hb1 : (runOnce 30 flat3).isSome = true := rfl
  have h := runOnce_monotone_flat 15 30 (by omega) (by omega) flat3
    (by
      intro n hn
      simp only [flat3, List.mem_cons, List.not_mem_nil, or_false] at hn
      rcases hn with h | h | h <;> (subst h; exact trivial))
    _ _ (Option.some_get ha1).symm (Option.some_get hb1).symm
  have e1 : ((runOnce 30 flat3).get hb1).chunks.length = 2 := rfl
  have e2 : ((runOnce 15 flat3).get ha1).chunks.length = 3 := rfl
  omega
